import Mathlib

/-!
Verification of the Codebase Introspection and Summarization Engine
(`src/introspector`: scanner, grammar parsers, git history collector,
file-tree builder and the `analyze` orchestrator).

The TypeScript source is shallowly embedded below.  Pure functions become
Lean functions; filesystem, tree-sitter and git-subprocess effects become
explicit environment records (`FsEnv`, `GitEnv`) of deterministic oracles,
and a thrown JS exception becomes `Except`/`Option`.  tree-sitter syntax
trees are embedded as the inductive `AstNode` carrying exactly the node
attributes the source reads (`type`, `children`, named fields,
`startIndex`/`endIndex`, `startPosition.row`).  JS string primitives used
by the source (`split`, `join`, `trim`, `slice`, `endsWith`, `extname`,
`toLowerCase`, `localeCompare`) are modelled by the `js*` helpers on
`List Char`; `localeCompare` is modelled as code-point comparison and
`Array.prototype.sort` as a stable comparison sort (`stableSortBy`),
which matches the ECMAScript stability guarantee.
-/

/-- Language classification of a scanned file (`FileInfo['lang']`). -/
inductive Lang where
  | python
  | typescript
  | other
deriving DecidableEq, Repr

/-- Role classification of a scanned file (`FileInfo['role']`). -/
inductive Role where
  | source
  | test
  | config
  | docs
deriving DecidableEq, Repr

/-- `ExportInfo` from `types.ts`: one extracted declaration. -/
structure ExportInfo where
  name : String
  kind : String
  signature : Option String
  docstring : Option String
  lineNumber : Nat
  isAsync : Option Bool
  isExported : Option Bool
deriving DecidableEq, Repr

/-- `ModuleInfo` from `types.ts`: per-file parse result. -/
structure ModuleInfo where
  path : String
  exports : List ExportInfo
  imports : List String
  complexity : String
deriving DecidableEq, Repr

/-- `FileInfo` from `types.ts`: one scanned file record. -/
structure FileInfo where
  path : String
  lang : Lang
  role : Role
  size : Nat
  lastModified : String
deriving DecidableEq, Repr

/-- Node type tag of a `FileTreeNode`. -/
inductive NodeType where
  | directory
  | file
deriving DecidableEq, Repr

/-- `FileTreeNode` from `types.ts`.  Files carry no `children` in the
source (the field is absent); here a file node simply has `children = []`. -/
inductive FileTreeNode where
  | mk (name : String) (path : String) (type : NodeType)
      (children : List FileTreeNode) (lang : Option Lang) (role : Option Role)

def FileTreeNode.name : FileTreeNode → String
  | .mk n _ _ _ _ _ => n

def FileTreeNode.path : FileTreeNode → String
  | .mk _ p _ _ _ _ => p

def FileTreeNode.type : FileTreeNode → NodeType
  | .mk _ _ t _ _ _ => t

def FileTreeNode.children : FileTreeNode → List FileTreeNode
  | .mk _ _ _ cs _ _ => cs

/-- `CommitInfo` from `types.ts`. -/
structure CommitInfo where
  hash : String
  shortHash : String
  author : String
  date : String
  message : String
  filesChanged : Nat
deriving DecidableEq, Repr

/-- `FileHistoryInfo` from `types.ts`. -/
structure FileHistoryInfo where
  path : String
  commitCount : Nat
  lastModified : String
  contributors : List String
deriving DecidableEq, Repr

/-- `GitInfo` from `types.ts`. -/
structure GitInfo where
  lastAnalyzedCommit : String
  currentCommit : String
  changedSince : List String
  branch : String
  recentCommits : Option (List CommitInfo)
  fileHistory : Option (List FileHistoryInfo)
deriving DecidableEq, Repr

/-- The `python` block of `ConfigInfo` from `types.ts`. -/
structure PythonConfig where
  entryPoints : List String
  testFramework : String
  hasTyping : Bool
  pyprojectToml : Bool
  setupPy : Bool
deriving DecidableEq, Repr

/-- The `typescript` block of `ConfigInfo` from `types.ts`. -/
structure TypeScriptConfig where
  entryPoints : List String
  testFramework : String
  hasTypes : Bool
  packageJson : Bool
  tsconfig : Bool
deriving DecidableEq, Repr

/-- `ConfigInfo` from `types.ts`; the empty object `{}` is the record with
both fields `none`. -/
structure ConfigInfo where
  python : Option PythonConfig := none
  typescript : Option TypeScriptConfig := none
deriving DecidableEq, Repr

/-- `RepoSummary` from `types.ts`, the root aggregate of `analyze`. -/
structure RepoSummary where
  languages : List Lang
  root : String
  analyzedAt : String
  files : List FileInfo
  modules : List ModuleInfo
  config : ConfigInfo
  git : Option GitInfo
  tree : Option FileTreeNode

/-! ### JS string primitives, modelled on `List Char` -/

/-- JS `String.prototype.split(c)` on character lists: always returns a
nonempty list of groups; splitting the empty string gives `[[]]`. -/
def splitChar (c : Char) : List Char → List (List Char)
  | [] => [[]]
  | x :: xs =>
    match splitChar c xs with
    | [] => [[x]]
    | g :: gs => if x = c then [] :: g :: gs else (x :: g) :: gs

/-- JS `path.split('/')`, producing `String` segments. -/
def jsSplitSlash (p : String) : List String :=
  (splitChar '/' p.toList).map fun l => String.mk l

/-- JS `Array.prototype.join('/')`. -/
def jsJoinSlash : List String → String
  | [] => ""
  | [s] => s
  | s :: rest => s ++ "/" ++ jsJoinSlash rest

/-- JS `String.prototype.endsWith`. -/
def jsEndsWith (suffix s : String) : Bool :=
  suffix.toList.isSuffixOf s.toList

/-- JS `String.prototype.startsWith`. -/
def jsStartsWith (pre s : String) : Bool :=
  List.isPrefixOf pre.toList s.toList

/-- JS substring containment (`String.prototype.includes`). -/
def jsIncludes (needle s : String) : Bool :=
  decide (needle.toList <:+: s.toList)

/-- JS `String.prototype.trim`. -/
def jsTrim (s : String) : String :=
  String.mk (((s.toList.dropWhile Char.isWhitespace).reverse.dropWhile
    Char.isWhitespace).reverse)

/-- JS `String.prototype.toLowerCase` (ASCII model). -/
def jsToLower (s : String) : String :=
  String.mk (s.toList.map Char.toLower)

/-- JS `Array.from(new Set(xs))`: deduplicate keeping first occurrences.
Filtering the recursive result is equivalent to filtering the argument and
keeps the recursion structural. -/
def jsSetDedup : List String → List String
  | [] => []
  | x :: xs => x :: ((jsSetDedup xs).filter fun y => y ≠ x)

/-- Last path segment of `p` (the JS `p.split('/').pop()` idiom and the
segment `minimatch` tests its basename patterns against). -/
def lastSegment (p : String) : String :=
  (jsSplitSlash p).getLastD ""

/-- Node `path.basename`, used by `analyze` only for the display name of
the tree root: the last nonempty `/`-separated segment. -/
def basenameOf (p : String) : String :=
  (((jsSplitSlash p).filter fun s => s ≠ "").getLastD p)

/-- Node `path.extname`: the suffix of the basename from its last dot,
empty when there is no dot or the only dot is the leading character. -/
def extnameOf (p : String) : String :=
  let b := (lastSegment p).toList
  let revAfter := b.reverse.takeWhile fun c => c ≠ '.'
  if ('.' ∈ b) ∧ revAfter.length + 1 ≠ b.length then
    String.mk ('.' :: revAfter.reverse)
  else
    ""

/-! ### tree-sitter syntax trees

`AstNode` carries exactly the node attributes the parsers read: `type`,
ordered `children`, named fields (`childForFieldName`), byte offsets
`startIndex`/`endIndex`, and the 0-based `startPosition.row`. -/

inductive AstNode where
  | mk (type : String) (children : List AstNode)
      (fields : List (String × AstNode)) (startIndex : Nat) (endIndex : Nat)
      (row : Nat)

def AstNode.type : AstNode → String
  | .mk t _ _ _ _ _ => t

def AstNode.children : AstNode → List AstNode
  | .mk _ cs _ _ _ _ => cs

def AstNode.fields : AstNode → List (String × AstNode)
  | .mk _ _ fs _ _ _ => fs

def AstNode.startIndex : AstNode → Nat
  | .mk _ _ _ s _ _ => s

def AstNode.endIndex : AstNode → Nat
  | .mk _ _ _ _ e _ => e

def AstNode.row : AstNode → Nat
  | .mk _ _ _ _ _ r => r

/-- tree-sitter `node.childForFieldName(name)`. -/
def AstNode.childForFieldName (node : AstNode) (name : String) : Option AstNode :=
  (node.fields.find? fun f => f.1 = name).map Prod.snd

/-- tree-sitter `node.firstChild`. -/
def AstNode.firstChild (node : AstNode) : Option AstNode :=
  node.children.head?

/-! ### `BaseParser` (`parsers/base.ts`) -/

/-- `BaseParser.getText`: `source.slice(startIndex, endIndex)`. -/
def BaseParser.getText (source : String) (startIndex endIndex : Nat) : String :=
  String.mk ((source.toList.drop startIndex).take (endIndex - startIndex))

/-- `BaseParser.calculateComplexity`. -/
def BaseParser.calculateComplexity (exportCount : Nat) : String :=
  if exportCount ≤ 5 then "low"
  else if exportCount ≤ 15 then "medium"
  else "high"

/-- Quote characters stripped by the docstring regexes. -/
def isQuoteChar (c : Char) : Bool :=
  c = '"' ∨ c = '\''

/-- The regex `^["']{1,3}|["']{1,3}$` applied globally: strip up to three
leading and up to three trailing quote characters. -/
def stripDocstringQuotes (l : List Char) : List Char :=
  let n := min 3 (l.takeWhile isQuoteChar).length
  let l1 := l.drop n
  let m := min 3 (l1.reverse.takeWhile isQuoteChar).length
  (l1.reverse.drop m).reverse

/-- `BaseParser.extractFirstLineOfDocstring`.  A JS `undefined` or empty
string argument is falsy and yields `undefined`. -/
def BaseParser.extractFirstLineOfDocstring (docstring : Option String) :
    Option String :=
  match docstring with
  | none => none
  | some s =>
    if s = "" then none
    else
      let trimmed := jsTrim s
      let firstLine := (splitChar '\n' trimmed.toList).headD []
      let stripped := jsTrim (String.mk (stripDocstringQuotes firstLine))
      if stripped = "" then none else some stripped

/-! ### `TypeScriptParser` (`parsers/typescript.ts`) -/

theorem AstNode.sizeOf_children_lt (n : AstNode) : sizeOf n.children < sizeOf n := by
  cases n with
  | mk t cs fs si ei r => simp [AstNode.children]; omega

mutual

/-- `countErrors`: number of `ERROR` nodes in the subtree. -/
def TypeScriptParser.countErrors : AstNode → Nat
  | .mk t cs _ _ _ _ =>
    (if t = "ERROR" then 1 else 0) + TypeScriptParser.countErrorsList cs

/-- Sum of `countErrors` over a child list. -/
def TypeScriptParser.countErrorsList : List AstNode → Nat
  | [] => 0
  | c :: cs => TypeScriptParser.countErrors c + TypeScriptParser.countErrorsList cs

end

/-- `TypeScriptParser.extractFunction`. -/
def TypeScriptParser.extractFunction (node : AstNode) (source : String)
    (isExported : Bool) : ExportInfo :=
  let nameNode := node.childForFieldName "name"
  let paramsNode := node.childForFieldName "parameters"
  let returnTypeNode := node.childForFieldName "return_type"
  let name := match nameNode with
    | some n => BaseParser.getText source n.startIndex n.endIndex
    | none => "unknown"
  let sig1 := match paramsNode with
    | some n => BaseParser.getText source n.startIndex n.endIndex
    | none => ""
  let signature := match returnTypeNode with
    | some n => sig1 ++ ": " ++ BaseParser.getText source n.startIndex n.endIndex
    | none => sig1
  let isAsync := node.children.any fun c => c.type = "async"
  { name := name
    kind := "function"
    signature := if signature = "" then none else some signature
    docstring := none
    lineNumber := node.row + 1
    isAsync := some isAsync
    isExported := some isExported }

/-- `TypeScriptParser.extractClass`. -/
def TypeScriptParser.extractClass (node : AstNode) (source : String)
    (isExported : Bool) : ExportInfo :=
  let nameNode := node.childForFieldName "name"
  let name := match nameNode with
    | some n => BaseParser.getText source n.startIndex n.endIndex
    | none => "unknown"
  let heritageNode := node.children.find? fun c => c.type = "class_heritage"
  { name := name
    kind := "class"
    signature := heritageNode.map fun n =>
      BaseParser.getText source n.startIndex n.endIndex
    docstring := none
    lineNumber := node.row + 1
    isAsync := none
    isExported := some isExported }

/-- `TypeScriptParser.extractVariables`. -/
def TypeScriptParser.extractVariables (node : AstNode) (source : String)
    (isExported : Bool) : List ExportInfo :=
  node.children.filterMap fun child =>
    if child.type = "variable_declarator" then
      match child.childForFieldName "name" with
      | some nameNode =>
        let valueNode := child.childForFieldName "value"
        let isFunction : Bool := match valueNode with
          | some v => v.type = "arrow_function" || v.type = "function_expression"
              || v.type = "function"
          | none => false
        some { name := BaseParser.getText source nameNode.startIndex nameNode.endIndex
               kind := if isFunction then "function" else "constant"
               signature := none
               docstring := none
               lineNumber := child.row + 1
               isAsync := valueNode.map fun v =>
                 v.children.any fun c => c.type = "async"
               isExported := some isExported }
      | none => none
    else none

/-- `TypeScriptParser.extractTypeDefinition`. -/
def TypeScriptParser.extractTypeDefinition (node : AstNode) (source : String)
    (isExported : Bool) : ExportInfo :=
  let name := match node.childForFieldName "name" with
    | some n => BaseParser.getText source n.startIndex n.endIndex
    | none => "unknown"
  { name := name
    kind := "type"
    signature := none
    docstring := none
    lineNumber := node.row + 1
    isAsync := none
    isExported := some isExported }

/-- Strip one leading and one trailing quote (`replace(/^["']|["']$/g, '')`). -/
def stripOneQuote (l : List Char) : List Char :=
  let l1 := match l with
    | c :: rest => if isQuoteChar c then rest else l
    | [] => []
  match l1.reverse with
  | c :: rest => if isQuoteChar c then rest.reverse else l1
  | [] => l1

/-- `TypeScriptParser.extractImport`. -/
def TypeScriptParser.extractImport (node : AstNode) (source : String) :
    List String :=
  node.children.filterMap fun child =>
    if child.type = "string" then
      some (String.mk (stripOneQuote
        (BaseParser.getText source child.startIndex child.endIndex).toList))
    else none

/-- The `export_clause` case of the walk. -/
def TypeScriptParser.exportClauseExports (node : AstNode) (source : String) :
    List ExportInfo :=
  node.children.filterMap fun child =>
    if child.type = "export_specifier" then
      let nameNode := match child.childForFieldName "name" with
        | some n => some n
        | none => child.firstChild
      match nameNode with
      | some n =>
        if n.type = "identifier" then
          some { name := BaseParser.getText source n.startIndex n.endIndex
                 kind := "constant"
                 signature := none
                 docstring := none
                 lineNumber := child.row + 1
                 isAsync := none
                 isExported := some true }
        else none
      | none => none
    else none

mutual

/-- `TypeScriptParser.walkNode`: depth-bounded walk returning the exports
and imports it pushes, in push order. -/
def TypeScriptParser.walkNode (source : String) :
    AstNode → Bool → Nat → List ExportInfo × List String
  | node@(.mk t cs _ _ _ _), isExported, depth =>
    if depth > 50 then ([], [])
    else if t = "ERROR" then ([], [])
    else match t with
    | "function_declaration" =>
      ([TypeScriptParser.extractFunction node source isExported], [])
    | "class_declaration" =>
      ([TypeScriptParser.extractClass node source isExported], [])
    | "lexical_declaration" =>
      (TypeScriptParser.extractVariables node source isExported, [])
    | "variable_declaration" =>
      (TypeScriptParser.extractVariables node source isExported, [])
    | "type_alias_declaration" =>
      ([TypeScriptParser.extractTypeDefinition node source isExported], [])
    | "interface_declaration" =>
      ([TypeScriptParser.extractTypeDefinition node source isExported], [])
    | "export_statement" =>
      TypeScriptParser.walkList source cs true (depth + 1)
    | "import_statement" => ([], TypeScriptParser.extractImport node source)
    | "program" => TypeScriptParser.walkList source cs false (depth + 1)
    | "export_clause" =>
      (TypeScriptParser.exportClauseExports node source, [])
    | _ => ([], [])

/-- Walk a child list in order, concatenating contributions. -/
def TypeScriptParser.walkList (source : String) (nodes : List AstNode)
    (isExported : Bool) (depth : Nat) : List ExportInfo × List String :=
  match nodes with
  | [] => ([], [])
  | c :: cs =>
    let r := TypeScriptParser.walkNode source c isExported depth
    let rs := TypeScriptParser.walkList source cs isExported depth
    (r.1 ++ rs.1, r.2 ++ rs.2)

end

/-- `TypeScriptParser.createEmptyModule` (the `reason` is logged, not
stored). -/
def TypeScriptParser.createEmptyModule (path : String) : ModuleInfo :=
  { path := path, exports := [], imports := [], complexity := "low" }

/-- `TypeScriptParser.parse`.  `tsTreeOf isTsx source` models
`this.tsxParser.parse(source)` / `this.tsParser.parse(source)` as a
deterministic oracle; `.error` models a thrown grammar exception, which
this parser catches itself.  tree-sitter's `rootNode.hasError` is
modelled as the presence of at least one `ERROR` node.  The `try` around
`walkNode` in the source is dead in the embedding because the embedded
walk is total. -/
def TypeScriptParser.parse (tsTreeOf : Bool → String → Except Unit AstNode)
    (source filePath : String) : ModuleInfo :=
  let isTsx := jsEndsWith ".tsx" filePath || jsEndsWith ".jsx" filePath
  match tsTreeOf isTsx source with
  | .error _ => TypeScriptParser.createEmptyModule filePath
  | .ok rootNode =>
    let cont :=
      let walked := TypeScriptParser.walkNode source rootNode false 0
      { path := filePath
        exports := walked.1
        imports := jsSetDedup walked.2
        complexity := BaseParser.calculateComplexity walked.1.length
        : ModuleInfo }
    if TypeScriptParser.countErrors rootNode > 0 then
      if TypeScriptParser.countErrors rootNode > 10 then
        TypeScriptParser.createEmptyModule filePath
      else cont
    else cont

/-! ### `PythonParser` (`parsers/python.ts`) -/

/-- `PythonParser.extractFunction`. -/
def PythonParser.extractFunction (node : AstNode) (source : String) :
    ExportInfo :=
  let nameNode := node.childForFieldName "name"
  let paramsNode := node.childForFieldName "parameters"
  let returnTypeNode := node.childForFieldName "return_type"
  let bodyNode := node.childForFieldName "body"
  let name := match nameNode with
    | some n => BaseParser.getText source n.startIndex n.endIndex
    | none => "unknown"
  let sig1 := match paramsNode with
    | some n => BaseParser.getText source n.startIndex n.endIndex
    | none => ""
  let signature := match returnTypeNode with
    | some n => sig1 ++ " -> " ++ BaseParser.getText source n.startIndex n.endIndex
    | none => sig1
  let isAsync := node.children.any fun c => c.type = "async"
  let docstring :=
    match bodyNode with
    | some body =>
      match body.firstChild with
      | some exprStmt =>
        if exprStmt.type = "expression_statement" then
          match exprStmt.firstChild with
          | some strNode =>
            if strNode.type = "string" then
              BaseParser.extractFirstLineOfDocstring
                (some (BaseParser.getText source strNode.startIndex strNode.endIndex))
            else none
          | none => none
        else none
      | none => none
    | none => none
  { name := name
    kind := "function"
    signature := if signature = "" then none else some signature
    docstring := docstring
    lineNumber := node.row + 1
    isAsync := some isAsync
    isExported := none }

/-- `PythonParser.extractClass`. -/
def PythonParser.extractClass (node : AstNode) (source : String) : ExportInfo :=
  let nameNode := node.childForFieldName "name"
  let bodyNode := node.childForFieldName "body"
  let name := match nameNode with
    | some n => BaseParser.getText source n.startIndex n.endIndex
    | none => "unknown"
  let docstring :=
    match bodyNode with
    | some body =>
      match body.firstChild with
      | some exprStmt =>
        if exprStmt.type = "expression_statement" then
          match exprStmt.firstChild with
          | some strNode =>
            if strNode.type = "string" then
              BaseParser.extractFirstLineOfDocstring
                (some (BaseParser.getText source strNode.startIndex strNode.endIndex))
            else none
          | none => none
        else none
      | none => none
    | none => none
  let superclassNode := node.childForFieldName "superclasses"
  { name := name
    kind := "class"
    signature := superclassNode.map fun n =>
      BaseParser.getText source n.startIndex n.endIndex
    docstring := docstring
    lineNumber := node.row + 1
    isAsync := none
    isExported := none }

/-- `PythonParser.extractImport`. -/
def PythonParser.extractImport (node : AstNode) (source : String) :
    List String :=
  node.children.filterMap fun child =>
    if child.type = "dotted_name" then
      some (BaseParser.getText source child.startIndex child.endIndex)
    else if child.type = "aliased_import" then
      (child.childForFieldName "name").map fun n =>
        BaseParser.getText source n.startIndex n.endIndex
    else none

/-- `PythonParser.extractFromImport`. -/
def PythonParser.extractFromImport (node : AstNode) (source : String) :
    List String :=
  match node.childForFieldName "module_name" with
  | some m => [BaseParser.getText source m.startIndex m.endIndex]
  | none => []

mutual

/-- `PythonParser.walkNode`: recursive walk with no depth bound; it only
recurses into the children of `module` and `decorated_definition` nodes. -/
def PythonParser.walkNode (source : String) :
    AstNode → List ExportInfo × List String
  | node@(.mk t cs _ _ _ _) =>
    match t with
    | "function_definition" => ([PythonParser.extractFunction node source], [])
    | "class_definition" => ([PythonParser.extractClass node source], [])
    | "import_statement" => ([], PythonParser.extractImport node source)
    | "import_from_statement" => ([], PythonParser.extractFromImport node source)
    | _ =>
      if t = "module" ∨ t = "decorated_definition" then
        PythonParser.walkList source cs
      else ([], [])

/-- Walk a child list in order, concatenating contributions. -/
def PythonParser.walkList (source : String) (nodes : List AstNode) :
    List ExportInfo × List String :=
  match nodes with
  | [] => ([], [])
  | c :: cs =>
    let r := PythonParser.walkNode source c
    let rs := PythonParser.walkList source cs
    (r.1 ++ rs.1, r.2 ++ rs.2)

end

/-- `PythonParser.parse`.  Unlike the TypeScript parser, the source does
not wrap `this.parser.parse(source)` in a `try`, checks no error-node
threshold, and never degrades to an empty module: a thrown grammar
exception (`.error`) propagates to the caller. -/
def PythonParser.parse (pyTreeOf : String → Except Unit AstNode)
    (source filePath : String) : Except Unit ModuleInfo := do
  let rootNode ← pyTreeOf source
  let walked := PythonParser.walkNode source rootNode
  pure { path := filePath
         exports := walked.1
         imports := jsSetDedup walked.2
         complexity := BaseParser.calculateComplexity walked.1.length }

/-! ### Stable comparison sort

`Array.prototype.sort(cmp)` is required by ECMAScript to be stable; it is
modelled by a stable insertion sort parameterized by the boolean relation
`le a b`, meaning `cmp(a, b) <= 0`. -/

/-- Insert `x` before the first element `y` with `le x y`. -/
def insertBy {α : Type} (le : α → α → Bool) (x : α) : List α → List α
  | [] => [x]
  | y :: ys => if le x y then x :: y :: ys else y :: insertBy le x ys

/-- Stable insertion sort modelling `Array.prototype.sort`. -/
def stableSortBy {α : Type} (le : α → α → Bool) : List α → List α
  | [] => []
  | x :: xs => insertBy le x (stableSortBy le xs)

theorem insertBy_perm {α : Type} (le : α → α → Bool) (x : α) (l : List α) :
    List.Perm (insertBy le x l) (x :: l) := by
  induction l with
  | nil => simp [insertBy]
  | cons y ys ih =>
    by_cases h : le x y
    · simp [insertBy, h]
    · simp only [insertBy, h, if_neg]
      exact ((ih.cons y).trans (List.Perm.swap x y ys)).symm.symm

theorem stableSortBy_perm {α : Type} (le : α → α → Bool) (l : List α) :
    List.Perm (stableSortBy le l) l := by
  induction l with
  | nil => simp [stableSortBy]
  | cons x xs ih =>
    exact (insertBy_perm le x (stableSortBy le xs)).trans (ih.cons x)

theorem mem_stableSortBy {α : Type} {le : α → α → Bool} {l : List α} {a : α}
    (h : a ∈ stableSortBy le l) : a ∈ l :=
  (stableSortBy_perm le l).mem_iff.mp h

/-- The comparator `(a, b) => a.path.localeCompare(b.path)` of the
`sortedFiles` pre-pass, with `localeCompare` modelled as code-point
comparison. -/
def fileCompareLe (a b : FileInfo) : Bool :=
  decide (a.path ≤ b.path)

/-- The child comparator of `sortTreeRecursive`: directories first, then
`localeCompare` on names (modelled as code-point comparison). -/
def childSortLe (a b : FileTreeNode) : Bool :=
  if a.type = b.type then decide (a.name ≤ b.name)
  else decide (a.type = NodeType.directory)

/-! ### `buildFileTree` (`tree.ts`)

The JS implementation builds the tree through a `Map<string, FileTreeNode>`
of shared mutable nodes: directory nodes live in the map keyed by their
path string, and `parent.children.push(child)` mutates a node aliased by
both the map and its parent.  The embedding makes the sharing explicit: a
`NodeMap` entry holds a directory's name and its ordered children, where a
directory child is a reference by key (`RawChild.dirRef`) and a file child
is an inline leaf; `materialize` then resolves the references into the
returned `FileTreeNode`, with fuel bounded by the map size (references
strictly increase path length, so `m.length + 1` always suffices). -/

inductive RawChild where
  | dirRef (name : String) (path : String)
  | fileLeaf (node : FileTreeNode)

structure MapEntry where
  path : String
  name : String
  children : List RawChild

abbrev NodeMap := List MapEntry

/-- `nodeMap.get(p)`. -/
def lookupNM (m : NodeMap) (p : String) : Option MapEntry :=
  m.find? fun e => e.path = p

/-- `nodeMap.has(p)`. -/
def hasNM (m : NodeMap) (p : String) : Bool :=
  (lookupNM m p).isSome

/-- `nodeMap.set(p, node)` for a fresh key: appends a new empty entry. -/
def setNM (m : NodeMap) (p n : String) : NodeMap :=
  m ++ [⟨p, n, []⟩]

/-- `parent.children.push(c)` through the map alias; a missing parent is
the JS `if (parent && parent.children)` no-op. -/
def pushChildNM (m : NodeMap) (p : String) (c : RawChild) : NodeMap :=
  m.map fun e => if e.path = p then ⟨e.path, e.name, e.children ++ [c]⟩ else e

/-- One iteration of the parent-directory creation loop of
`buildFileTree`; the state is `(currentPath, nodeMap)`. -/
def addDirStep (st : String × NodeMap) (seg : String) : String × NodeMap :=
  let parentPath := st.1
  let m := st.2
  let currentPath := if parentPath ≠ "" then parentPath ++ "/" ++ seg else seg
  if hasNM m currentPath then (currentPath, m)
  else
    let m1 := setNM m currentPath seg
    (currentPath, pushChildNM m1 parentPath (RawChild.dirRef seg currentPath))

/-- The body of the `for (const file of sortedFiles)` loop. -/
def processFile (m : NodeMap) (file : FileInfo) : NodeMap :=
  let parts := jsSplitSlash file.path
  let dirSegs := parts.dropLast
  let st := dirSegs.foldl addDirStep ("", m)
  let fileName := parts.getLastD ""
  let fileNode : FileTreeNode :=
    .mk fileName file.path NodeType.file [] (some file.lang) (some file.role)
  pushChildNM st.2 (jsJoinSlash dirSegs) (RawChild.fileLeaf fileNode)

mutual

/-- Resolve a `NodeMap` into the tree rooted at key `p`; `n` is the name
used when the key is absent (which never happens for reachable keys). -/
def materialize (m : NodeMap) (fuel : Nat) (p n : String) : FileTreeNode :=
  match fuel with
  | 0 => .mk n p NodeType.directory [] none none
  | fuel' + 1 =>
    match lookupNM m p with
    | none => .mk n p NodeType.directory [] none none
    | some e =>
      .mk e.name p NodeType.directory
        (e.children.map fun c => materializeChild m fuel' c) none none

/-- Resolve one raw child: a file leaf is already a node, a directory
reference resolves through the map. -/
def materializeChild (m : NodeMap) (fuel : Nat) (c : RawChild) : FileTreeNode :=
  match c with
  | .fileLeaf node => node
  | .dirRef n2 p2 => materialize m fuel p2 n2

end

/-- `sortTreeRecursive`: sort the children, then recurse into each. -/
def sortTreeRecursive : FileTreeNode → FileTreeNode
  | .mk n p t cs lg rl =>
    let sorted := stableSortBy childSortLe cs
    .mk n p t (sorted.attach.map fun c => sortTreeRecursive c.1) lg rl
termination_by t => sizeOf t
decreasing_by
  have h1 := List.sizeOf_lt_of_mem (mem_stableSortBy c.2)
  simp only [FileTreeNode.mk.sizeOf_spec]
  omega

/-- `buildFileTree` from `tree.ts`. -/
def buildFileTree (files : List FileInfo) (rootName : String := ".") :
    FileTreeNode :=
  let m0 : NodeMap := [⟨"", rootName, []⟩]
  let sortedFiles := stableSortBy fileCompareLe files
  let m := sortedFiles.foldl processFile m0
  sortTreeRecursive (materialize m (m.length + 1) "" rootName)

/-! ### Observation functions on trees (for stating the invariants) -/

mutual

/-- Number of file-typed nodes in the tree (all of them are leaves). -/
def fileLeafCount : FileTreeNode → Nat
  | .mk _ _ t cs _ _ => (if t = NodeType.file then 1 else 0) + fileLeafCountList cs

def fileLeafCountList : List FileTreeNode → Nat
  | [] => 0
  | c :: cs => fileLeafCount c + fileLeafCountList cs

end

mutual

/-- Number of file-typed nodes whose `path` is `x`. -/
def leafPathCount (x : String) : FileTreeNode → Nat
  | .mk _ p t cs _ _ =>
    (if t = NodeType.file ∧ p = x then 1 else 0) + leafPathCountList x cs

def leafPathCountList (x : String) : List FileTreeNode → Nat
  | [] => 0
  | c :: cs => leafPathCount x c + leafPathCountList x cs

end

mutual

/-- Number of directory-typed nodes whose `path` is `x`. -/
def dirPathCount (x : String) : FileTreeNode → Nat
  | .mk _ p t cs _ _ =>
    (if t = NodeType.directory ∧ p = x then 1 else 0) + dirPathCountList x cs

def dirPathCountList (x : String) : List FileTreeNode → Nat
  | [] => 0
  | c :: cs => dirPathCount x c + dirPathCountList x cs

end

/-- All ordered pairs of the list satisfy `le`. -/
def pairwiseLeB {α : Type} (le : α → α → Bool) : List α → Bool
  | [] => true
  | x :: xs => xs.all (le x) && pairwiseLeB le xs

mutual

/-- Every directory's children list is sorted by `childSortLe`:
directories before files, each group in name order. -/
def isOrderedTree : FileTreeNode → Bool
  | .mk _ _ _ cs _ _ => pairwiseLeB childSortLe cs && isOrderedForest cs

def isOrderedForest : List FileTreeNode → Bool
  | [] => true
  | c :: cs => isOrderedTree c && isOrderedForest cs

end

/-! ### File scanner (`scanner.ts`) -/

/-- Stat results for one path (`fs.stat`). -/
structure StatInfo where
  size : Nat
  mtimeIso : String

/-- The filesystem-and-grammar side of the environment.  `listing` is the
set of file paths under the root; `statOf`/`readFile` return `none` where
the JS call would throw; `pyTreeOf`/`tsTreeOf` are the deterministic
tree-sitter parse oracles (the Bool selects the TSX grammar); `configOf`
models `detectConfig`, whose manifest probing is irrelevant to every claim
here. -/
structure FsEnv where
  listing : List String
  statOf : String → Option StatInfo
  readFile : String → Option String
  pyTreeOf : String → Except Unit AstNode
  tsTreeOf : Bool → String → Except Unit AstNode
  configOf : ConfigInfo

/-- Directory names of `IGNORE_PATTERNS` (each `dir/**`). -/
def ignoreDirs : List String :=
  ["node_modules", ".git", "__pycache__", "dist", "build", ".venv", "venv",
   ".env", "env", "coverage", ".next", ".nuxt"]

/-- The `IGNORE_PATTERNS` exclusion: under an ignored top-level directory,
or a `*.pyc` artifact. -/
def isIgnoredPath (p : String) : Bool :=
  ignoreDirs.any (fun d => jsStartsWith (d ++ "/") p) || jsEndsWith ".pyc" p

/-- Whether `glob('**/*<ext>')` (with default `dot:false` and the ignore
list) selects path `p`: no path segment may start with a dot, and the path
must end with the pattern's extension. -/
def globMatchesExt (ext : String) (p : String) : Bool :=
  ((jsSplitSlash p).all fun s => !(jsStartsWith "." s)) &&
  jsEndsWith ext p &&
  !(isIgnoredPath p)

/-- `detectLanguage` from `scanner.ts`. -/
def detectLanguage (filePath : String) : Lang :=
  let ext := jsToLower (extnameOf filePath)
  if ext = ".py" then Lang.python
  else if ext = ".ts" ∨ ext = ".tsx" then Lang.typescript
  else if ext = ".js" ∨ ext = ".jsx" then Lang.typescript
  else Lang.other

/-- `detectRole` from `scanner.ts`. -/
def detectRole (filePath : String) : Role :=
  let lowerPath := jsToLower filePath
  let fileName := (jsSplitSlash lowerPath).getLastD ""
  if jsIncludes "__tests__" lowerPath || jsIncludes "/tests/" lowerPath
      || jsIncludes "/test/" lowerPath
      || jsEndsWith "_test.py" fileName || jsEndsWith ".test.ts" fileName
      || jsEndsWith ".test.tsx" fileName || jsEndsWith ".test.js" fileName
      || jsEndsWith ".spec.ts" fileName || jsEndsWith ".spec.tsx" fileName
      || jsEndsWith ".spec.js" fileName || jsStartsWith "test_" fileName then
    Role.test
  else if jsIncludes "config" lowerPath || jsIncludes "settings" lowerPath
      || jsIncludes ".env" lowerPath || jsEndsWith "conftest.py" lowerPath
      || jsEndsWith "setup.py" lowerPath
      || jsEndsWith "pyproject.toml" lowerPath then
    Role.config
  else if jsIncludes "docs" lowerPath || jsIncludes "doc" lowerPath
      || jsIncludes "readme" lowerPath then
    Role.docs
  else Role.source

/-- `scanDirectory` from `scanner.ts`: one glob per pattern, dedup, then
one `stat` per path with a failing stat silently dropping the file. -/
def scanDirectory (fs : FsEnv) : List FileInfo :=
  let patterns := [".py", ".ts", ".tsx", ".js", ".jsx"]
  let files := patterns.foldl
    (fun acc ext => acc ++ (fs.listing.filter (globMatchesExt ext))) []
  let uniqueFiles := jsSetDedup files
  uniqueFiles.filterMap fun relativePath =>
    (fs.statOf relativePath).map fun stats =>
      { path := relativePath
        lang := detectLanguage relativePath
        role := detectRole relativePath
        size := stats.size
        lastModified := stats.mtimeIso }

/-! ### Git history collector (`git.ts`) -/

/-- Outcomes of the read-only git subprocess calls.  `recentCommits` and
`fileHistory` stand for the results of `getRecentCommits`/`getFileHistory`,
whose log-output munging is internal to `git.ts` and already degrades to
`[]` on its own failures. -/
structure GitEnv where
  revParseGitDir : Except Unit String
  revParseHead : Except Unit String
  branchShowCurrent : Except Unit String
  diffNameOnly : String → Except Unit String
  recentCommits : List CommitInfo
  fileHistory : List FileHistoryInfo

/-- `isSourceFile` from `git.ts` (the regex tests the recognized source
extensions at end of path). -/
def isSourceFile (filePath : String) : Bool :=
  jsEndsWith ".py" filePath || jsEndsWith ".ts" filePath
    || jsEndsWith ".tsx" filePath || jsEndsWith ".js" filePath
    || jsEndsWith ".jsx" filePath

/-- `getChangedFiles` from `git.ts`. -/
def getChangedFiles (env : GitEnv) (since : String) : List String :=
  match env.diffNameOnly since with
  | .error _ => []
  | .ok stdout =>
    (((splitChar '\n' stdout.toList).map fun l => String.mk l).filter
      fun f => f != "" && isSourceFile f)

/-- `getGitInfo` from `git.ts`: `none` when `git rev-parse --git-dir`
fails (not a repository), and `none` when any call of the second `try`
block fails. -/
def getGitInfo (env : GitEnv) (lastCommit : Option String) : Option GitInfo :=
  match env.revParseGitDir with
  | .error _ => none
  | .ok _ =>
    match env.revParseHead, env.branchShowCurrent with
    | .ok ccRaw, .ok brRaw =>
      let currentCommit := jsTrim ccRaw
      let branch := if jsTrim brRaw = "" then "HEAD" else jsTrim brRaw
      let changedSince := match lastCommit with
        | some lc => if lc ≠ "" ∧ lc ≠ currentCommit then getChangedFiles env lc else []
        | none => []
      some { currentCommit := currentCommit
             lastAnalyzedCommit :=
               match lastCommit with
               | some lc => if lc ≠ "" then lc else currentCommit
               | none => currentCommit
             changedSince := changedSince
             branch := branch
             recentCommits := some env.recentCommits
             fileHistory := some env.fileHistory }
    | _, _ => none

/-! ### The orchestrator (`analyzer.ts`) -/

/-- The whole effect environment of one `analyze` run over a fixed
on-disk state. -/
structure Env where
  fs : FsEnv
  git : GitEnv
  now : String

/-- The `try` block of `analyze`'s per-file loop: read the file, dispatch
on language, and skip the file (`none`) when the read or the Python parse
throws. -/
def parseOneFile (env : Env) (file : FileInfo) : Option ModuleInfo :=
  match env.fs.readFile file.path with
  | none => none
  | some source =>
    match file.lang with
    | Lang.python =>
      match PythonParser.parse env.fs.pyTreeOf source file.path with
      | .ok m => some m
      | .error _ => none
    | Lang.typescript => some (TypeScriptParser.parse env.fs.tsTreeOf source file.path)
    | Lang.other => none

/-- `detectLanguages` from `analyzer.ts` (a `Set` iterated in insertion
order). -/
def detectLanguages (files : List FileInfo) : List Lang :=
  files.foldl
    (fun acc f =>
      match f.lang with
      | Lang.python => if acc.contains Lang.python then acc else acc ++ [Lang.python]
      | Lang.typescript =>
        if acc.contains Lang.typescript then acc else acc ++ [Lang.typescript]
      | Lang.other => acc)
    []

/-- `analyze` from `analyzer.ts`. -/
def analyze (env : Env) (root : String) (onlyFiles : Option (List String))
    (lastCommit : Option String) : RepoSummary :=
  let files0 := scanDirectory env.fs
  let files := match onlyFiles with
    | some s => if s.length > 0 then files0.filter (fun f => s.contains f.path) else files0
    | none => files0
  let sourceFiles := files.filter fun f =>
    f.role == Role.source && f.lang != Lang.other
  let modules := sourceFiles.filterMap (parseOneFile env)
  { languages := detectLanguages files
    root := root
    analyzedAt := env.now
    files := files
    modules := modules
    config := env.fs.configOf
    git := getGitInfo env.git lastCommit
    tree := some (buildFileTree files (basenameOf root)) }

/-- `analyzeIncremental` from `analyzer.ts`. -/
def analyzeIncremental (env : Env) (root lastCommit : String) : RepoSummary :=
  let changedFiles := getChangedFiles env.git lastCommit
  if changedFiles.length = 0 then
    { languages := []
      root := root
      analyzedAt := env.now
      files := []
      modules := []
      config := {}
      git := getGitInfo env.git (some lastCommit)
      tree := none }
  else
    analyze env root (some changedFiles) (some lastCommit)

/-! ### Proof infrastructure for `buildFileTree` -/

/-- The key set of a `NodeMap`, with multiplicity. -/
def keysNM (m : NodeMap) : List String :=
  m.map MapEntry.path

/-- The target of a directory reference. -/
def RawChild.target : RawChild → Option String
  | .dirRef _ p => some p
  | .fileLeaf _ => none

/-- Well-formedness of one child of the entry at `q`: a directory
reference points at an existing, strictly longer key. -/
def refOK (m : NodeMap) (q : String) (c : RawChild) : Prop :=
  match c with
  | .dirRef _ p2 => p2 ∈ keysNM m ∧ q.length < p2.length
  | .fileLeaf _ => True

/-- Structural invariant of the maps reachable in `buildFileTree`:
distinct keys and length-increasing references into the map. -/
def InvLen (m : NodeMap) : Prop :=
  (keysNM m).Nodup ∧ ∀ e ∈ m, ∀ c ∈ e.children, refOK m e.path c

/-- Number of keys strictly longer than `p`: the recursion measure of
`materialize`. -/
def muNM (m : NodeMap) (p : String) : Nat :=
  ((keysNM m).filter fun k => p.length < k.length).length

theorem countP_lt_countP {α : Type} (p q : α → Bool) (l : List α)
    (hpq : ∀ a ∈ l, p a = true → q a = true) (a : α) (ha : a ∈ l)
    (hqa : q a = true) (hpa : ¬ p a = true) : l.countP p < l.countP q := by
  induction l with
  | nil => cases ha
  | cons x xs ih =>
    rcases List.mem_cons.mp ha with rfl | hmem
    · have h1 : xs.countP p ≤ xs.countP q :=
        List.countP_mono_left fun b hb => hpq b (List.mem_cons_of_mem _ hb)
      simp only [List.countP_cons, hqa, hpa]
      simp
      omega
    · have h1 := ih (fun b hb hpb => hpq b (List.mem_cons_of_mem _ hb) hpb) hmem
      simp only [List.countP_cons]
      by_cases hx : p x = true
      · have : q x = true := hpq x (List.mem_cons_self _ _) hx
        simp [hx, this]; omega
      · simp only [hx, if_neg]
        simp
        split <;> omega

theorem muNM_le_length (m : NodeMap) (p : String) : muNM m p ≤ m.length := by
  calc ((keysNM m).filter fun k => p.length < k.length).length
      ≤ (keysNM m).length := List.length_filter_le _ _
    _ = m.length := List.length_map _ _

theorem lookupNM_mem {m : NodeMap} {p : String} {e : MapEntry}
    (h : lookupNM m p = some e) : e ∈ m ∧ e.path = p := by
  refine ⟨List.mem_of_find?_eq_some h, ?_⟩
  have := List.find?_some h
  exact of_decide_eq_true this

theorem lookupNM_eq_none_iff {m : NodeMap} {p : String} :
    lookupNM m p = none ↔ p ∉ keysNM m := by
  constructor
  · intro h hp
    rcases List.mem_map.mp hp with ⟨e, he, hep⟩
    have := List.find?_eq_none.mp h e he
    simp [hep] at this
  · intro hp
    apply List.find?_eq_none.mpr
    intro e he
    simp only [decide_eq_true_eq]
    intro hep
    exact hp (List.mem_map.mpr ⟨e, he, hep⟩)

theorem lookupNM_isSome_iff {m : NodeMap} {p : String} :
    (lookupNM m p).isSome = true ↔ p ∈ keysNM m := by
  rcases h : lookupNM m p with _ | e
  · simp [lookupNM_eq_none_iff.mp h]
  · simp
    rcases lookupNM_mem h with ⟨he, rfl⟩
    exact List.mem_map.mpr ⟨e, he, rfl⟩

theorem muNM_lt_of_ref {m : NodeMap} {e : MapEntry} {n2 p2 : String}
    (hm : InvLen m) (he : e ∈ m) (hc : RawChild.dirRef n2 p2 ∈ e.children) :
    muNM m p2 < muNM m e.path := by
  have hok := hm.2 e he _ hc
  rcases hok with ⟨hkey, hlen⟩
  unfold muNM
  rw [← List.countP_eq_length_filter, ← List.countP_eq_length_filter]
  refine countP_lt_countP _ _ _ ?_ p2 hkey ?_ ?_
  · intro a _ hpa
    simp only [decide_eq_true_eq] at hpa ⊢
    omega
  · simp only [decide_eq_true_eq]
    exact hlen
  · simp

theorem materialize_fuel_eq (m : NodeMap) (hm : InvLen m) :
    ∀ fuel p n, muNM m p + 1 ≤ fuel →
      materialize m fuel p n = materialize m (muNM m p + 1) p n := by
  intro fuel
  induction fuel using Nat.strong_induction_on with
  | _ fuel ih =>
    intro p n hfuel
    match fuel, hfuel with
    | fuel' + 1, hfuel =>
      rw [materialize, materialize]
      rcases h : lookupNM m p with _ | e
      · rfl
      · rcases lookupNM_mem h with ⟨he, hep⟩
        dsimp only
        congr 1
        apply List.map_congr_left
        intro c hc
        cases c with
        | fileLeaf node => simp only [materializeChild]
        | dirRef n2 p2 =>
          have hmu : muNM m p2 < muNM m p := by
            have := muNM_lt_of_ref hm he hc
            rwa [hep] at this
          simp only [materializeChild]
          have e1 : materialize m fuel' p2 n2 = materialize m (muNM m p2 + 1) p2 n2 := by
            apply ih fuel' (by omega) p2 n2 (by omega)
          have e2 : materialize m (muNM m p) p2 n2 =
              materialize m (muNM m p2 + 1) p2 n2 := by
            apply ih (muNM m p) (by omega) p2 n2 (by omega)
          rw [e1, e2]

theorem keysNM_setNM (m : NodeMap) (k n : String) :
    keysNM (setNM m k n) = keysNM m ++ [k] := by
  simp [keysNM, setNM]

theorem keysNM_pushChildNM (m : NodeMap) (q : String) (c : RawChild) :
    keysNM (pushChildNM m q c) = keysNM m := by
  unfold keysNM pushChildNM
  rw [List.map_map]
  apply List.map_congr_left
  intro e _
  by_cases h : e.path = q <;> simp [h]

theorem muNM_pushChildNM (m : NodeMap) (q : String) (c : RawChild) (p : String) :
    muNM (pushChildNM m q c) p = muNM m p := by
  unfold muNM
  rw [keysNM_pushChildNM]

theorem pushChildModify_path (q : String) (c : RawChild) (e : MapEntry) :
    (if e.path = q then (⟨e.path, e.name, e.children ++ [c]⟩ : MapEntry)
      else e).path = e.path := by
  by_cases h : e.path = q <;> simp [h]

theorem lookupNM_pushChildNM (m : NodeMap) (q : String) (c : RawChild) (p : String) :
    lookupNM (pushChildNM m q c) p = (lookupNM m p).map fun e =>
      if e.path = q then ⟨e.path, e.name, e.children ++ [c]⟩ else e := by
  induction m with
  | nil => rfl
  | cons e m ih =>
    unfold pushChildNM at ih ⊢
    unfold lookupNM at ih ⊢
    simp only [List.map_cons]
    by_cases hp : e.path = p
    · rw [List.find?_cons_of_pos _ (by rw [pushChildModify_path]; simp [hp]),
        List.find?_cons_of_pos _ (by simp [hp])]
      rfl
    · rw [List.find?_cons_of_neg _ (by rw [pushChildModify_path]; simp [hp]),
        List.find?_cons_of_neg _ (by simp [hp])]
      exact ih

theorem pushChildNM_of_not_mem (m : NodeMap) (q : String) (c : RawChild)
    (hq : q ∉ keysNM m) : pushChildNM m q c = m := by
  unfold pushChildNM
  conv_rhs => rw [← List.map_id m]
  apply List.map_congr_left
  intro e he
  have : e.path ≠ q := fun h => hq (h ▸ List.mem_map.mpr ⟨e, he, rfl⟩)
  simp [this]

theorem refOK_keys_eq {m m2 : NodeMap} (h : keysNM m = keysNM m2) (q : String)
    (c : RawChild) : refOK m q c → refOK m2 q c := by
  cases c with
  | dirRef n2 p2 => intro hc; exact ⟨h ▸ hc.1, hc.2⟩
  | fileLeaf fn => intro _; trivial

theorem InvLen_pushChildNM {m : NodeMap} (hm : InvLen m) (q : String)
    (c : RawChild) (hc : refOK m q c) : InvLen (pushChildNM m q c) := by
  constructor
  · rw [keysNM_pushChildNM]; exact hm.1
  · intro e2 he2 c2 hc2
    rcases List.mem_map.mp he2 with ⟨e, he, hee⟩
    apply refOK_keys_eq (keysNM_pushChildNM m q c).symm
    subst hee
    by_cases hq : e.path = q
    · rw [if_pos hq] at hc2 ⊢
      dsimp only at hc2 ⊢
      rcases List.mem_append.mp hc2 with h1 | h1
      · exact hm.2 e he c2 h1
      · simp only [List.mem_singleton] at h1
        subst h1
        rw [hq]
        exact hc
    · rw [if_neg hq] at hc2 ⊢
      exact hm.2 e he c2 hc2

theorem InvLen_setNM {m : NodeMap} (hm : InvLen m) (k n : String)
    (hk : k ∉ keysNM m) : InvLen (setNM m k n) := by
  constructor
  · rw [keysNM_setNM]
    simpa [List.nodup_append] using ⟨hm.1, fun hkk => hk hkk⟩
  · intro e he c hc
    rcases List.mem_append.mp he with h1 | h1
    · have hok := hm.2 e h1 c hc
      cases c with
      | dirRef n2 p2 =>
        refine ⟨?_, hok.2⟩
        rw [keysNM_setNM]
        exact List.mem_append.mpr (Or.inl hok.1)
      | fileLeaf fn => trivial
    · simp only [List.mem_singleton] at h1
      subst h1
      cases hc

theorem lookupNM_setNM_ne (m : NodeMap) (k n p : String) (h : p ≠ k) :
    lookupNM (setNM m k n) p = lookupNM m p := by
  unfold lookupNM setNM
  rw [List.find?_append]
  rcases hf : List.find? (fun e => decide (e.path = p)) m with _ | e
  · rw [hf, Option.none_or,
      List.find?_cons_of_neg _ (by simpa using fun hh => h hh.symm)]
    rfl
  · rw [hf]
    rfl

theorem lookupNM_setNM_self (m : NodeMap) (k n : String) (hk : k ∉ keysNM m) :
    lookupNM (setNM m k n) k = some ⟨k, n, []⟩ := by
  unfold lookupNM setNM
  rw [List.find?_append]
  have h1 : List.find? (fun e => decide (e.path = k)) m = none :=
    lookupNM_eq_none_iff.mpr hk
  rw [h1]
  rw [List.find?_cons_of_pos _ (by simp)]
  rfl

theorem materialize_setNM (m : NodeMap) (k n2 : String) (_hk : k ∉ keysNM m)
    (href : ∀ e ∈ m, ∀ c ∈ e.children, RawChild.target c ≠ some k) :
    ∀ fuel p n, p ≠ k →
      materialize (setNM m k n2) fuel p n = materialize m fuel p n := by
  intro fuel
  induction fuel with
  | zero => intro p n _; rw [materialize, materialize]
  | succ fuel ih =>
    intro p n hp
    rw [materialize, materialize, lookupNM_setNM_ne m k n2 p hp]
    rcases h : lookupNM m p with _ | e
    · rfl
    · rcases lookupNM_mem h with ⟨he, hep⟩
      dsimp only
      congr 1
      apply List.map_congr_left
      intro c hc
      cases c with
      | fileLeaf node => simp [materializeChild]
      | dirRef nn pp =>
        simp only [materializeChild]
        apply ih
        intro hpk
        exact href e he _ hc (by simp [RawChild.target, hpk])

theorem fileLeafCountList_eq (cs : List FileTreeNode) :
    fileLeafCountList cs = (cs.map fileLeafCount).sum := by
  induction cs with
  | nil => rfl
  | cons c cs ih => simp [fileLeafCountList, ih]

theorem leafPathCountList_eq (x : String) (cs : List FileTreeNode) :
    leafPathCountList x cs = (cs.map (leafPathCount x)).sum := by
  induction cs with
  | nil => rfl
  | cons c cs ih => simp [leafPathCountList, ih]

theorem dirPathCountList_eq (x : String) (cs : List FileTreeNode) :
    dirPathCountList x cs = (cs.map (dirPathCount x)).sum := by
  induction cs with
  | nil => rfl
  | cons c cs ih => simp [dirPathCountList, ih]

theorem dirPathCount_mk (x n p : String) (t : NodeType) (cs : List FileTreeNode)
    (lg : Option Lang) (rl : Option Role) :
    dirPathCount x (.mk n p t cs lg rl) =
      (if t = NodeType.directory ∧ p = x then 1 else 0) +
        (cs.map (dirPathCount x)).sum := by
  rw [dirPathCount, dirPathCountList_eq]

theorem sum_map_add_mul {α : Type} (l : List α) (u v : α → Nat) (k : Nat) :
    (l.map fun a => u a + v a * k).sum = (l.map u).sum + (l.map v).sum * k := by
  induction l with
  | nil => simp
  | cons a l ih =>
    simp only [List.map_cons, List.sum_cons, ih]
    ring

/-- Central surgery lemma: appending one child `c0` to entry `q` changes
any child-additive count `f` of the materialized tree by `f`-of-the-new
subtree once per directory node at path `q`. -/
theorem materialize_pushChildNM_count
    (f : FileTreeNode → Nat)
    (g : String → String → NodeType → Option Lang → Option Role → Nat)
    (hf : ∀ n p t cs lg rl,
      f (FileTreeNode.mk n p t cs lg rl) = g n p t lg rl + (cs.map f).sum)
    (m : NodeMap) (hm : InvLen m) (q : String) (hq : q ∈ keysNM m)
    (hleaf : ∀ e ∈ m, ∀ fn, RawChild.fileLeaf fn ∈ e.children →
      dirPathCount q fn = 0)
    (c0 : RawChild) (w : FileTreeNode)
    (hw : ∀ fuel, materializeChild (pushChildNM m q c0) fuel c0 = w) :
    ∀ fuel p n, muNM m p + 1 ≤ fuel →
      f (materialize (pushChildNM m q c0) fuel p n) =
        f (materialize m fuel p n) +
          dirPathCount q (materialize m fuel p n) * f w := by
  intro fuel
  induction fuel using Nat.strong_induction_on with
  | _ fuel ihf =>
    intro p n hfuel
    match fuel, hfuel with
    | fuel1 + 1, hfuel =>
      rw [materialize, materialize, lookupNM_pushChildNM]
      rcases h : lookupNM m p with _ | e
      · have hpq : p ≠ q := fun hh => (lookupNM_eq_none_iff.mp h) (hh ▸ hq)
        dsimp only [Option.map_none']
        rw [hf, dirPathCount_mk]
        simp [hpq]
      · rcases lookupNM_mem h with ⟨he, hep⟩
        dsimp only [Option.map_some']
        have hchild : ∀ c ∈ e.children,
            f (materializeChild (pushChildNM m q c0) fuel1 c) =
              f (materializeChild m fuel1 c) +
                dirPathCount q (materializeChild m fuel1 c) * f w := by
          intro c hc
          cases c with
          | fileLeaf fn =>
            simp [materializeChild, hleaf e he fn hc]
          | dirRef nn pp =>
            simp only [materializeChild]
            apply ihf fuel1 (by omega) pp nn
            have hlt : muNM m pp < muNM m p := by
              have := muNM_lt_of_ref hm he hc
              rwa [hep] at this
            omega
        have hmap2 : (e.children.map fun c =>
            materializeChild (pushChildNM m q c0) fuel1 c).map f =
            e.children.map fun c =>
              f (materializeChild m fuel1 c) +
                dirPathCount q (materializeChild m fuel1 c) * f w := by
          rw [List.map_map]
          exact List.map_congr_left hchild
        by_cases hpq : p = q
        · subst hpq
          rw [if_pos hep]
          dsimp only
          rw [hf, hf, dirPathCount_mk]
          rw [List.map_append, List.map_append, List.sum_append]
          rw [hmap2, sum_map_add_mul]
          simp only [List.map_singleton, List.sum_singleton, hw fuel1]
          simp only [List.map_map, Function.comp_def]
          simp only [and_self, ite_true, if_pos rfl]
          rw [Nat.add_mul, Nat.one_mul]
          omega
        · rw [if_neg (fun hh => hpq (hep.symm.trans hh))]
          rw [hf, hf, dirPathCount_mk]
          rw [hmap2, sum_map_add_mul]
          simp only [List.map_map, Function.comp_def, hpq, true_and, and_false,
            if_false, ite_false, Nat.zero_add]
          omega

theorem fileLeafCount_mk (n p : String) (t : NodeType) (cs : List FileTreeNode)
    (lg : Option Lang) (rl : Option Role) :
    fileLeafCount (.mk n p t cs lg rl) =
      (if t = NodeType.file then 1 else 0) + (cs.map fileLeafCount).sum := by
  rw [fileLeafCount, fileLeafCountList_eq]

theorem leafPathCount_mk (x n p : String) (t : NodeType) (cs : List FileTreeNode)
    (lg : Option Lang) (rl : Option Role) :
    leafPathCount x (.mk n p t cs lg rl) =
      (if t = NodeType.file ∧ p = x then 1 else 0) +
        (cs.map (leafPathCount x)).sum := by
  rw [leafPathCount, leafPathCountList_eq]

/-- File leaves stored in the map really are childless file nodes. -/
def LeavesOK (m : NodeMap) : Prop :=
  ∀ e ∈ m, ∀ fn, RawChild.fileLeaf fn ∈ e.children →
    fn.type = NodeType.file ∧ fn.children = []

theorem dirPathCount_of_fileNode {fn : FileTreeNode}
    (h1 : fn.type = NodeType.file) (h2 : fn.children = []) (q : String) :
    dirPathCount q fn = 0 := by
  cases fn with
  | mk n p t cs lg rl =>
    simp only [FileTreeNode.type] at h1
    simp only [FileTreeNode.children] at h2
    subst h1; subst h2
    rw [dirPathCount_mk]
    simp

/-- The canonical materialization used by `buildFileTree`. -/
def MAT (m : NodeMap) (rootName : String) : FileTreeNode :=
  materialize m (m.length + 1) "" rootName

/-- Invariant carried through the `buildFileTree` fold: structural map
well-formedness, and the counts of the materialized tree.  `ps` is the
list of file paths attached so far. -/
structure GoodMap (m : NodeMap) (rootName : String) (ps : List String) : Prop where
  inv : InvLen m
  rootMem : "" ∈ keysNM m
  leaves : LeavesOK m
  dirCount : ∀ x, dirPathCount x (MAT m rootName) = (keysNM m).count x
  total : fileLeafCount (MAT m rootName) = ps.length
  leafCount : ∀ x, leafPathCount x (MAT m rootName) = ps.count x

theorem append_slash_ne_empty (a b : String) : (a ++ "/" ++ b) ≠ "" := by
  intro h
  have := congrArg String.length h
  simp [String.length_append] at this
  exact absurd this.1.2 (by decide)

theorem length_pos_of_ne_empty {s : String} (h : s ≠ "") : 0 < s.length := by
  cases s with
  | mk l =>
    cases l with
    | nil => simp at h
    | cons c cs => simp [String.length]

theorem leavesOK_hleaf {m : NodeMap} (h : LeavesOK m) (q : String) :
    ∀ e ∈ m, ∀ fn, RawChild.fileLeaf fn ∈ e.children → dirPathCount q fn = 0 := by
  intro e he fn hfn
  rcases h e he fn hfn with ⟨h1, h2⟩
  exact dirPathCount_of_fileNode h1 h2 q

theorem LeavesOK_setNM {m : NodeMap} (h : LeavesOK m) (k n : String) :
    LeavesOK (setNM m k n) := by
  intro e he fn hfn
  rcases List.mem_append.mp he with h1 | h1
  · exact h e h1 fn hfn
  · simp only [List.mem_singleton] at h1
    subst h1
    cases hfn

theorem LeavesOK_pushChildNM {m : NodeMap} (h : LeavesOK m) (q : String)
    (c : RawChild)
    (hc : ∀ fn, c = RawChild.fileLeaf fn →
      fn.type = NodeType.file ∧ fn.children = []) :
    LeavesOK (pushChildNM m q c) := by
  intro e2 he2 fn hfn
  rcases List.mem_map.mp he2 with ⟨e, he, hee⟩
  subst hee
  by_cases hq : e.path = q
  · rw [if_pos hq] at hfn
    dsimp only at hfn
    rcases List.mem_append.mp hfn with h1 | h1
    · exact h e he fn h1
    · simp only [List.mem_singleton] at h1
      exact hc fn h1.symm
  · rw [if_neg hq] at hfn
    exact h e he fn hfn

theorem count_singleton_eq {x k : String} :
    List.count x [k] = if k = x then 1 else 0 := by
  by_cases hx : k = x <;> simp [hx, List.count_cons]

theorem addDirStep_good {m : NodeMap} {rootName : String} {ps : List String}
    (hg : GoodMap m rootName ps) {cur : String} (hcur : cur ∈ keysNM m)
    (seg : String) :
    GoodMap (addDirStep (cur, m) seg).2 rootName ps ∧
      (addDirStep (cur, m) seg).1 ∈ keysNM (addDirStep (cur, m) seg).2 := by
  set k := if cur ≠ "" then cur ++ "/" ++ seg else seg with hkdef
  by_cases hk : hasNM m k
  · have h1 : addDirStep (cur, m) seg = (k, m) := by
      simp only [addDirStep, ← hkdef, hk, if_true]
    rw [h1]
    exact ⟨hg, lookupNM_isSome_iff.mp hk⟩
  · have h1 : addDirStep (cur, m) seg =
        (k, pushChildNM (setNM m k seg) cur (RawChild.dirRef seg k)) := by
      simp only [addDirStep, ← hkdef, hk, if_false]
      rfl
    rw [h1]
    have hkmem : k ∉ keysNM m := by
      rw [← lookupNM_isSome_iff]
      simpa [hasNM] using hk
    have hkne : k ≠ "" := fun h => hkmem (h ▸ hg.rootMem)
    have hlen : cur.length < k.length := by
      by_cases hc : cur = ""
      · rw [hkdef, if_neg (by simp [hc])]
        have := length_pos_of_ne_empty (by rw [hkdef, if_neg (by simp [hc])] at hkne; exact hkne)
        simp [hc]
        omega
      · rw [hkdef, if_pos hc]
        have hsl : ("/" : String).length = 1 := rfl
        simp [String.length_append, hsl]
        omega
    set m1 := setNM m k seg with hm1def
    set m2 := pushChildNM m1 cur (RawChild.dirRef seg k) with hm2def
    have hm1inv : InvLen m1 := InvLen_setNM hg.inv k seg hkmem
    have hcur1 : cur ∈ keysNM m1 := by
      rw [hm1def, keysNM_setNM]
      exact List.mem_append.mpr (Or.inl hcur)
    have hkeys1 : k ∈ keysNM m1 := by
      rw [hm1def, keysNM_setNM]
      exact List.mem_append.mpr (Or.inr (List.mem_singleton.mpr rfl))
    have hm2inv : InvLen m2 := InvLen_pushChildNM hm1inv cur _ ⟨hkeys1, hlen⟩
    have hkeys2 : keysNM m2 = keysNM m ++ [k] := by
      rw [hm2def, keysNM_pushChildNM, hm1def, keysNM_setNM]
    have hm1len : m1.length = m.length + 1 := by simp [hm1def, setNM]
    have hm2len : m2.length = m.length + 1 := by
      simp [hm2def, pushChildNM, hm1len]
    have hkne2 : k ≠ cur := fun h => hkmem (h ▸ hcur)
    have hw : ∀ fuel, materializeChild m2 fuel (RawChild.dirRef seg k) =
        FileTreeNode.mk seg k NodeType.directory [] none none := by
      intro fuel
      cases fuel with
      | zero => simp [materializeChild, materialize]
      | succ fuel =>
        have hlk : lookupNM m2 k = some ⟨k, seg, []⟩ := by
          rw [hm2def, lookupNM_pushChildNM, hm1def,
            lookupNM_setNM_self m k seg hkmem]
          simp [hkne2]
        simp [materializeChild, materialize, hlk]
    have hleaf1 := leavesOK_hleaf (LeavesOK_setNM hg.leaves k seg) cur
    have hfuelok : muNM m1 "" + 1 ≤ m2.length + 1 := by
      have := muNM_le_length m1 ""
      omega
    have href : ∀ e ∈ m, ∀ c ∈ e.children, RawChild.target c ≠ some k := by
      intro e he c hc
      cases c with
      | dirRef nn pp =>
        have hki := hg.inv.2 e he _ hc
        intro hpk
        simp only [RawChild.target, Option.some.injEq] at hpk
        exact hkmem (hpk ▸ hki.1)
      | fileLeaf fn => simp [RawChild.target]
    have hsetinv : materialize m1 (m2.length + 1) "" rootName = MAT m rootName := by
      rw [hm1def, materialize_setNM m k seg hkmem href _ "" rootName
        (fun h => hkne h.symm)]
      exact (materialize_fuel_eq m hg.inv (m2.length + 1) "" rootName
          (by have := muNM_le_length m ""; omega)).trans
        (materialize_fuel_eq m hg.inv (m.length + 1) "" rootName
          (by have := muNM_le_length m ""; omega)).symm
    have hdq1 : dirPathCount cur (MAT m rootName) = 1 := by
      rw [hg.dirCount cur]
      exact List.count_eq_one_of_mem hg.inv.1 hcur
    have hMAT2 : MAT m2 rootName = materialize m2 (m2.length + 1) "" rootName := rfl
    refine ⟨⟨hm2inv, ?_, ?_, ?_, ?_, ?_⟩, ?_⟩
    · rw [hkeys2]
      exact List.mem_append.mpr (Or.inl hg.rootMem)
    · refine LeavesOK_pushChildNM (LeavesOK_setNM hg.leaves k seg) cur _ ?_
      intro fn hfn
      cases hfn
    · intro x
      have hs := materialize_pushChildNM_count (dirPathCount x)
        (fun n p t lg rl => if t = NodeType.directory ∧ p = x then 1 else 0)
        (fun n p t cs lg rl => dirPathCount_mk x n p t cs lg rl)
        m1 hm1inv cur hcur1 hleaf1 _ _ hw (m2.length + 1) "" rootName hfuelok
      rw [hMAT2, hm2def]
      rw [hs, hsetinv, hdq1, hg.dirCount x]
      have hwx : dirPathCount x
          (FileTreeNode.mk seg k NodeType.directory [] none none) =
          if k = x then 1 else 0 := by
        rw [dirPathCount_mk]
        simp
      rw [hwx, hkeys2, List.count_append, count_singleton_eq]
      omega
    · have hs := materialize_pushChildNM_count fileLeafCount
        (fun n p t lg rl => if t = NodeType.file then 1 else 0)
        (fun n p t cs lg rl => fileLeafCount_mk n p t cs lg rl)
        m1 hm1inv cur hcur1 hleaf1 _ _ hw (m2.length + 1) "" rootName hfuelok
      rw [hMAT2, hm2def, hs, hsetinv, hdq1, hg.total]
      have hwx : fileLeafCount
          (FileTreeNode.mk seg k NodeType.directory [] none none) = 0 := by
        rw [fileLeafCount_mk]
        simp
      rw [hwx]
      omega
    · intro x
      have hs := materialize_pushChildNM_count (leafPathCount x)
        (fun n p t lg rl => if t = NodeType.file ∧ p = x then 1 else 0)
        (fun n p t cs lg rl => leafPathCount_mk x n p t cs lg rl)
        m1 hm1inv cur hcur1 hleaf1 _ _ hw (m2.length + 1) "" rootName hfuelok
      rw [hMAT2, hm2def, hs, hsetinv, hdq1, hg.leafCount x]
      have hwx : leafPathCount x
          (FileTreeNode.mk seg k NodeType.directory [] none none) = 0 := by
        rw [leafPathCount_mk]
        simp
      rw [hwx]
      omega
    · rw [hkeys2]
      exact List.mem_append.mpr (Or.inr (List.mem_singleton.mpr rfl))

theorem pushFile_good {m : NodeMap} {rootName : String} {ps : List String}
    (hg : GoodMap m rootName ps) {q : String} (hq : q ∈ keysNM m)
    (fn : FileTreeNode) (hft : fn.type = NodeType.file)
    (hfc : fn.children = []) :
    GoodMap (pushChildNM m q (RawChild.fileLeaf fn)) rootName
      (ps ++ [fn.path]) := by
  have hleaf := leavesOK_hleaf hg.leaves q
  have hw : ∀ fuel, materializeChild (pushChildNM m q (RawChild.fileLeaf fn))
      fuel (RawChild.fileLeaf fn) = fn := by
    intro fuel
    simp [materializeChild]
  have hlen2 : (pushChildNM m q (RawChild.fileLeaf fn)).length = m.length := by
    simp [pushChildNM]
  have hfuelok : muNM m "" + 1 ≤ m.length + 1 := by
    have := muNM_le_length m ""
    omega
  have hdq1 : dirPathCount q (MAT m rootName) = 1 := by
    rw [hg.dirCount q]
    exact List.count_eq_one_of_mem hg.inv.1 hq
  have hMAT2 : MAT (pushChildNM m q (RawChild.fileLeaf fn)) rootName =
      materialize (pushChildNM m q (RawChild.fileLeaf fn)) (m.length + 1)
        "" rootName := by
    rw [MAT, hlen2]
  have hfn0 : dirPathCount q fn = 0 := dirPathCount_of_fileNode hft hfc q
  refine ⟨InvLen_pushChildNM hg.inv q _ trivial, ?_, ?_, ?_, ?_, ?_⟩
  · rw [keysNM_pushChildNM]
    exact hg.rootMem
  · refine LeavesOK_pushChildNM hg.leaves q _ ?_
    intro fn2 hfn2
    cases hfn2
    exact ⟨hft, hfc⟩
  · intro x
    have hs := materialize_pushChildNM_count (dirPathCount x)
      (fun n p t lg rl => if t = NodeType.directory ∧ p = x then 1 else 0)
      (fun n p t cs lg rl => dirPathCount_mk x n p t cs lg rl)
      m hg.inv q hq hleaf _ fn hw (m.length + 1) "" rootName hfuelok
    have hdcx := hg.dirCount x
    rw [MAT] at hdcx
    rw [hMAT2, hs, keysNM_pushChildNM, hdcx,
      dirPathCount_of_fileNode hft hfc x]
    omega
  · have hs := materialize_pushChildNM_count fileLeafCount
      (fun n p t lg rl => if t = NodeType.file then 1 else 0)
      (fun n p t cs lg rl => fileLeafCount_mk n p t cs lg rl)
      m hg.inv q hq hleaf _ fn hw (m.length + 1) "" rootName hfuelok
    have hfn1 : fileLeafCount fn = 1 := by
      cases fn with
      | mk n2 p2 t2 cs2 lg2 rl2 =>
        simp only [FileTreeNode.type] at hft
        simp only [FileTreeNode.children] at hfc
        subst hft; subst hfc
        rw [fileLeafCount_mk]
        simp
    have htot := hg.total
    have hdq2 := hdq1
    rw [MAT] at htot hdq2
    rw [hMAT2, hs, htot, hdq2, hfn1]
    simp
  · intro x
    have hs := materialize_pushChildNM_count (leafPathCount x)
      (fun n p t lg rl => if t = NodeType.file ∧ p = x then 1 else 0)
      (fun n p t cs lg rl => leafPathCount_mk x n p t cs lg rl)
      m hg.inv q hq hleaf _ fn hw (m.length + 1) "" rootName hfuelok
    have hfn1 : leafPathCount x fn = if fn.path = x then 1 else 0 := by
      cases fn with
      | mk n2 p2 t2 cs2 lg2 rl2 =>
        simp only [FileTreeNode.type] at hft
        simp only [FileTreeNode.children] at hfc
        subst hft; subst hfc
        rw [leafPathCount_mk]
        simp [FileTreeNode.path]
    have hlc := hg.leafCount x
    have hdq2 := hdq1
    rw [MAT] at hlc hdq2
    rw [hMAT2, hs, hlc, hdq2, hfn1, List.count_append,
      count_singleton_eq]
    omega

theorem foldl_addDirStep_good {rootName : String} {ps : List String}
    (segs : List String) :
    ∀ {m : NodeMap} {cur : String}, GoodMap m rootName ps →
      cur ∈ keysNM m →
      GoodMap (segs.foldl addDirStep (cur, m)).2 rootName ps ∧
        (segs.foldl addDirStep (cur, m)).1 ∈
          keysNM (segs.foldl addDirStep (cur, m)).2 := by
  induction segs with
  | nil => intro m cur hg hcur; exact ⟨hg, hcur⟩
  | cons s rest ih =>
    intro m cur hg hcur
    rcases addDirStep_good hg hcur s with ⟨hg2, hcur2⟩
    rcases hst : addDirStep (cur, m) s with ⟨cur2, m2⟩
    rw [hst] at hg2 hcur2
    simp only [List.foldl_cons, hst]
    exact ih hg2 hcur2

theorem foldl_addDirStep_fst (segs : List String) :
    ∀ (cur : String) (m : NodeMap),
      (segs.foldl addDirStep (cur, m)).1 =
        segs.foldl (fun c s => if c ≠ "" then c ++ "/" ++ s else s) cur := by
  induction segs with
  | nil => intro cur m; rfl
  | cons s rest ih =>
    intro cur m
    simp only [List.foldl_cons]
    have h1 : (addDirStep (cur, m) s).1 =
        if cur ≠ "" then cur ++ "/" ++ s else s := by
      unfold addDirStep
      dsimp only
      by_cases hnm : hasNM m (if cur ≠ "" then cur ++ "/" ++ s else s) = true
      · rw [if_pos hnm]
      · rw [if_neg hnm]
    rcases hst : addDirStep (cur, m) s with ⟨cur2, m2⟩
    rw [hst] at h1
    simp only at h1
    rw [ih cur2 m2, h1]

theorem jsJoinSlash_cons_append (a b : String) (rest : List String) :
    jsJoinSlash ((a ++ "/" ++ b) :: rest) = a ++ "/" ++ jsJoinSlash (b :: rest) := by
  cases rest with
  | nil => simp [jsJoinSlash]
  | cons c cs => simp [jsJoinSlash, String.append_assoc]

theorem foldl_joinStep (segs : List String) :
    ∀ cur : String, cur ≠ "" →
      segs.foldl (fun c s => if c ≠ "" then c ++ "/" ++ s else s) cur =
        jsJoinSlash (cur :: segs) := by
  induction segs with
  | nil => intro cur _; rfl
  | cons s rest ih =>
    intro cur hcur
    simp only [List.foldl_cons, if_pos hcur]
    rw [ih (cur ++ "/" ++ s) (append_slash_ne_empty cur s),
      jsJoinSlash_cons_append]
    rfl

theorem splitChar_ne_nil (c : Char) (l : List Char) : splitChar c l ≠ [] := by
  cases l with
  | nil => simp [splitChar]
  | cons x xs =>
    unfold splitChar
    rcases h : splitChar c xs with _ | ⟨g, gs⟩
    · simp
    · by_cases hx : x = c <;> simp [hx]

theorem splitChar_cons_of_ne (x : Char) (xs : List Char) (c : Char)
    (hx : ¬ x = c) : ∃ g gs, splitChar c (x :: xs) = (x :: g) :: gs := by
  unfold splitChar
  rcases h : splitChar c xs with _ | ⟨g, gs⟩
  · exact absurd h (splitChar_ne_nil c xs)
  · exact ⟨g, gs, by simp [hx]⟩

theorem mkCons_ne_empty (x : Char) (l : List Char) : String.mk (x :: l) ≠ "" := by
  intro h
  have h2 := congrArg String.toList h
  simp [String.toList] at h2

theorem head_ne_slash {p : String} {x : Char} {xs : List Char}
    (hl : p.toList = x :: xs) (h : jsStartsWith "/" p = false) : ¬ x = '/' := by
  intro hx
  subst hx
  unfold jsStartsWith at h
  rw [hl] at h
  simp [show ("/" : String).toList = ['/'] from rfl, List.isPrefixOf] at h

theorem processFile_good {m : NodeMap} {rootName : String} {ps : List String}
    (hg : GoodMap m rootName ps) (file : FileInfo)
    (hpath : jsStartsWith "/" file.path = false) :
    GoodMap (processFile m file) rootName (ps ++ [file.path]) := by
  have hpf : processFile m file =
      pushChildNM
        (((jsSplitSlash file.path).dropLast).foldl addDirStep ("", m)).2
        (jsJoinSlash ((jsSplitSlash file.path).dropLast))
        (RawChild.fileLeaf (FileTreeNode.mk
          ((jsSplitSlash file.path).getLastD "") file.path NodeType.file []
          (some file.lang) (some file.role))) := rfl
  rw [hpf]
  rcases foldl_addDirStep_good ((jsSplitSlash file.path).dropLast)
    hg hg.rootMem with ⟨hg2, hmem2⟩
  have hjoin : jsJoinSlash ((jsSplitSlash file.path).dropLast) =
      (((jsSplitSlash file.path).dropLast).foldl addDirStep ("", m)).1 := by
    rcases hds : (jsSplitSlash file.path).dropLast with _ | ⟨s1, rest⟩
    · simp [jsJoinSlash]
    · have hne : s1 ≠ "" := by
        have hplist : ∃ y ys, file.path.toList = y :: ys := by
          rcases hpl : file.path.toList with _ | ⟨y, ys⟩
          · exfalso
            have : jsSplitSlash file.path = [""] := by
              unfold jsSplitSlash
              rw [hpl]
              rfl
            rw [this] at hds
            simp at hds
          · exact ⟨_, _, rfl⟩
        rcases hplist with ⟨y, ys, hpl⟩
        have hy : ¬ y = '/' := head_ne_slash hpl hpath
        rcases splitChar_cons_of_ne y ys '/' hy with ⟨g, gs, hsp⟩
        have hparts : jsSplitSlash file.path = String.mk (y :: g) ::
            gs.map fun l => String.mk l := by
          unfold jsSplitSlash
          rw [hpl, hsp]
          rfl
        have hhead : s1 = String.mk (y :: g) := by
          rw [hparts] at hds
          rcases hgs : gs.map (fun l => String.mk l) with _ | ⟨a, as⟩
          · rw [hgs] at hds
            simp [List.dropLast] at hds
          · rw [hgs] at hds
            simp [List.dropLast] at hds
            exact hds.1.symm
        rw [hhead]
        exact mkCons_ne_empty y g
      rw [foldl_addDirStep_fst]
      simp only [List.foldl_cons]
      rw [show (if ("" : String) ≠ "" then "" ++ "/" ++ s1 else s1) = s1 by simp]
      rw [foldl_joinStep rest s1 hne]
  rw [hjoin]
  exact pushFile_good hg2 hmem2 _ rfl rfl

theorem foldl_processFile_good (files : List FileInfo) :
    ∀ {m : NodeMap} {rootName : String} {ps : List String},
      GoodMap m rootName ps →
      (∀ f ∈ files, jsStartsWith "/" f.path = false) →
      GoodMap (files.foldl processFile m) rootName
        (ps ++ files.map FileInfo.path) := by
  induction files with
  | nil => intro m rn ps hg _; simpa using hg
  | cons f fs ih =>
    intro m rn ps hg hs
    simp only [List.foldl_cons, List.map_cons]
    have h1 := processFile_good hg f (hs f (List.mem_cons_self _ _))
    have h2 := ih h1 (fun g hgm => hs g (List.mem_cons_of_mem _ hgm))
    simpa [List.append_assoc] using h2

theorem goodMap_init (rootName : String) :
    GoodMap [⟨"", rootName, []⟩] rootName [] := by
  have hmat : MAT [⟨"", rootName, []⟩] rootName =
      FileTreeNode.mk rootName "" NodeType.directory [] none none := by
    rw [MAT]
    rw [materialize]
    have hlk : lookupNM [⟨"", rootName, []⟩] "" = some ⟨"", rootName, []⟩ := by
      simp [lookupNM]
    simp [hlk]
  refine ⟨⟨?_, ?_⟩, ?_, ?_, ?_, ?_, ?_⟩
  · simp [keysNM]
  · intro e he c hc
    simp only [List.mem_singleton] at he
    subst he
    simp at hc
  · simp [keysNM]
  · intro e he fn hfn
    simp only [List.mem_singleton] at he
    subst he
    simp at hfn
  · intro x
    rw [hmat, dirPathCount_mk]
    simp only [keysNM, List.map_singleton]
    rw [count_singleton_eq]
    simp
  · rw [hmat, fileLeafCount_mk]
    simp
  · intro x
    rw [hmat, leafPathCount_mk]
    simp

theorem sortTreeRecursive_count (f : FileTreeNode → Nat)
    (g : String → String → NodeType → Option Lang → Option Role → Nat)
    (hf : ∀ n p t cs lg rl,
      f (FileTreeNode.mk n p t cs lg rl) = g n p t lg rl + (cs.map f).sum) :
    ∀ t, f (sortTreeRecursive t) = f t := by
  intro t
  induction t using sortTreeRecursive.induct with
  | _ n p ty cs lg rl sorted ih =>
    rw [sortTreeRecursive]
    rw [hf, hf]
    congr 1
    rw [List.attach_map_val (stableSortBy childSortLe cs) sortTreeRecursive,
      List.map_map]
    have h2 : (stableSortBy childSortLe cs).map (f ∘ sortTreeRecursive) =
        (stableSortBy childSortLe cs).map f := by
      apply List.map_congr_left
      intro c hc
      exact ih ⟨c, hc⟩
    rw [h2]
    exact ((stableSortBy_perm childSortLe cs).map f).sum_eq

theorem childSortLe_total (a b : FileTreeNode) :
    childSortLe a b = true ∨ childSortLe b a = true := by
  unfold childSortLe
  by_cases h : a.type = b.type
  · rw [if_pos h, if_pos h.symm]
    rcases le_total a.name b.name with h2 | h2
    · left; exact decide_eq_true h2
    · right; exact decide_eq_true h2
  · rw [if_neg h, if_neg (fun hh => h hh.symm)]
    cases ha : a.type <;> cases hb : b.type <;> simp_all

theorem childSortLe_trans (a b c : FileTreeNode)
    (hab : childSortLe a b = true) (hbc : childSortLe b c = true) :
    childSortLe a c = true := by
  unfold childSortLe at *
  by_cases h1 : a.type = b.type
  · rw [if_pos h1] at hab
    by_cases h2 : b.type = c.type
    · rw [if_pos h2] at hbc
      rw [if_pos (h1.trans h2)]
      simp only [decide_eq_true_eq] at hab hbc ⊢
      exact le_trans hab hbc
    · rw [if_neg h2] at hbc
      rw [if_neg (fun hh => h2 (h1.symm.trans hh))]
      simp only [decide_eq_true_eq] at hbc ⊢
      rw [h1]
      exact hbc
  · rw [if_neg h1] at hab
    simp only [decide_eq_true_eq] at hab
    by_cases h2 : b.type = c.type
    · rw [if_neg (fun hh => h1 (hh.trans h2.symm))]
      simp only [decide_eq_true_eq]
      exact hab
    · rw [if_neg h2] at hbc
      simp only [decide_eq_true_eq] at hbc
      exact absurd (hab.trans hbc.symm) h1

theorem pairwiseLeB_insertBy {α : Type} (le : α → α → Bool)
    (total : ∀ a b, le a b = true ∨ le b a = true)
    (htrans : ∀ a b c, le a b = true → le b c = true → le a c = true)
    (x : α) (l : List α) (hl : pairwiseLeB le l = true) :
    pairwiseLeB le (insertBy le x l) = true := by
  induction l with
  | nil => simp [insertBy, pairwiseLeB]
  | cons y ys ih =>
    simp only [pairwiseLeB, Bool.and_eq_true, List.all_eq_true] at hl
    rcases hl with ⟨hy, hys⟩
    by_cases hxy : le x y = true
    · simp only [insertBy, if_pos hxy, pairwiseLeB, Bool.and_eq_true,
        List.all_eq_true]
      refine ⟨?_, ?_, hys⟩
      · intro z hz
        rcases List.mem_cons.mp hz with rfl | hz2
        · exact hxy
        · exact htrans x y z hxy (hy z hz2)
      · exact hy
    · have hyx : le y x = true := (total x y).resolve_left hxy
      simp only [insertBy, if_neg hxy, pairwiseLeB, Bool.and_eq_true,
        List.all_eq_true]
      refine ⟨?_, ih hys⟩
      intro z hz
      have hz2 : z = x ∨ z ∈ ys := by
        have := (insertBy_perm le x ys).mem_iff.mp hz
        simpa using this
      rcases hz2 with rfl | hz2
      · exact hyx
      · exact hy z hz2

theorem pairwiseLeB_stableSortBy {α : Type} (le : α → α → Bool)
    (total : ∀ a b, le a b = true ∨ le b a = true)
    (htrans : ∀ a b c, le a b = true → le b c = true → le a c = true)
    (l : List α) : pairwiseLeB le (stableSortBy le l) = true := by
  induction l with
  | nil => simp [stableSortBy, pairwiseLeB]
  | cons x xs ih =>
    exact pairwiseLeB_insertBy le total htrans x _ ih

theorem pairwiseLeB_map {α β : Type} (le : β → β → Bool) (g : α → β)
    (le2 : α → α → Bool) (hcomm : ∀ a b, le (g a) (g b) = le2 a b)
    (l : List α) (h : pairwiseLeB le2 l = true) :
    pairwiseLeB le (l.map g) = true := by
  induction l with
  | nil => simp [pairwiseLeB]
  | cons x xs ih =>
    simp only [pairwiseLeB, Bool.and_eq_true, List.all_eq_true] at h
    simp only [List.map_cons, pairwiseLeB, Bool.and_eq_true, List.all_eq_true]
    refine ⟨?_, ih h.2⟩
    intro z hz
    rcases List.mem_map.mp hz with ⟨a, ha, rfl⟩
    rw [hcomm]
    exact h.1 a ha

theorem childSortLe_sortTreeRecursive (a b : FileTreeNode) :
    childSortLe (sortTreeRecursive a) (sortTreeRecursive b) = childSortLe a b := by
  cases a with
  | mk na pa ta csa lga rla =>
    cases b with
    | mk nb pb tb csb lgb rlb =>
      rw [sortTreeRecursive, sortTreeRecursive]
      simp [childSortLe, FileTreeNode.type, FileTreeNode.name]

theorem isOrderedForest_eq_all (l : List FileTreeNode) :
    isOrderedForest l = l.all isOrderedTree := by
  induction l with
  | nil => rfl
  | cons c cs ih => rw [isOrderedForest, ih, List.all_cons]

theorem isOrderedTree_sortTreeRecursive : ∀ t,
    isOrderedTree (sortTreeRecursive t) = true := by
  intro t
  induction t using sortTreeRecursive.induct with
  | _ n p ty cs lg rl sorted ih =>
    rw [sortTreeRecursive]
    rw [isOrderedTree]
    rw [List.attach_map_val (stableSortBy childSortLe cs) sortTreeRecursive]
    simp only [Bool.and_eq_true]
    constructor
    · apply pairwiseLeB_map childSortLe sortTreeRecursive childSortLe
        childSortLe_sortTreeRecursive
      exact pairwiseLeB_stableSortBy childSortLe childSortLe_total
        childSortLe_trans cs
    · rw [isOrderedForest_eq_all, List.all_eq_true]
      intro z hz
      rcases List.mem_map.mp hz with ⟨c, hc, rfl⟩
      exact ih ⟨c, hc⟩

/-! ### Scanner lemmas: glob selection determines the extension -/

theorem getLastD_congr_of_ne_nil {α : Type} (l : List α) (h : l ≠ [])
    (d1 d2 : α) : l.getLastD d1 = l.getLastD d2 := by
  induction l generalizing d1 d2 with
  | nil => exact absurd rfl h
  | cons x xs ih =>
    cases xs with
    | nil => rfl
    | cons y ys =>
      simp only [List.getLastD_cons]

theorem getLastD_mem_of_ne_nil {α : Type} (l : List α) (h : l ≠ []) (d : α) :
    l.getLastD d ∈ l := by
  induction l generalizing d with
  | nil => exact absurd rfl h
  | cons x xs ih =>
    cases xs with
    | nil => simp [List.getLastD]
    | cons y ys =>
      rw [List.getLastD_cons]
      exact List.mem_cons_of_mem _ (ih (by simp) x)

theorem getLastD_map_mk (l : List (List Char)) (d : List Char) :
    ((l.map fun g => String.mk g).getLastD (String.mk d)) =
      String.mk (l.getLastD d) := by
  induction l generalizing d with
  | nil => rfl
  | cons x xs ih =>
    simp only [List.map_cons, List.getLastD_cons]
    exact ih x

theorem splitChar_no_sep (c : Char) (l : List Char) (h : c ∉ l) :
    splitChar c l = [l] := by
  induction l with
  | nil => rfl
  | cons x xs ih =>
    unfold splitChar
    rw [ih fun hc => h (List.mem_cons_of_mem _ hc)]
    have hx : ¬ x = c := fun hh => h (hh ▸ List.mem_cons_self _ _)
    simp [hx]

theorem lastSegment_toList (p : String) :
    (lastSegment p).toList = (splitChar '/' p.toList).getLastD [] := by
  unfold lastSegment jsSplitSlash
  rw [show ("" : String) = String.mk [] from rfl,
    getLastD_map_mk (splitChar '/' p.toList) []]
  rfl

theorem suffix_lastGroup (suf : List Char) (hns : '/' ∉ suf) :
    ∀ l : List Char, suf <:+ l → suf <:+ (splitChar '/' l).getLastD [] := by
  intro l
  induction l with
  | nil =>
    intro h
    have hsnil : suf = [] := List.eq_nil_of_suffix_nil h
    subst hsnil
    simp
  | cons x xs ih =>
    intro hsuf
    rcases List.suffix_cons_iff.mp hsuf with heq | hsuf2
    · subst heq
      rw [splitChar_no_sep '/' (x :: xs) hns]
      simp
  -- otherwise the suffix lives in `xs`
    · have h2 := ih hsuf2
      rcases hs : splitChar '/' xs with _ | ⟨g, gs⟩
      · exact absurd hs (splitChar_ne_nil _ _)
      · rw [hs] at h2
        by_cases hx : x = '/'
        · have hstep : splitChar '/' (x :: xs) = [] :: g :: gs := by
            unfold splitChar
            rw [hs]
            simp [hx]
          rw [hstep]
          simpa [List.getLastD_cons] using h2
        · have hstep : splitChar '/' (x :: xs) = (x :: g) :: gs := by
            unfold splitChar
            rw [hs]
            simp [hx]
          rw [hstep]
          cases gs with
          | nil =>
            simp only [List.getLastD_cons, List.getLastD] at h2 ⊢
            exact h2.trans (List.suffix_cons x g)
          | cons a as =>
            simp only [List.getLastD_cons] at h2 ⊢
            exact h2

theorem takeWhile_append_stop (q : Char → Bool) (l1 : List Char) (c : Char)
    (l2 : List Char) (h1 : ∀ x ∈ l1, q x = true) (hc : ¬ q c = true) :
    (l1 ++ c :: l2).takeWhile q = l1 := by
  induction l1 with
  | nil => simp [List.takeWhile_cons, hc]
  | cons x xs ih =>
    have hx : q x = true := h1 x (List.mem_cons_self _ _)
    simp only [List.cons_append, List.takeWhile_cons, hx, if_true]
    rw [ih fun y hy => h1 y (List.mem_cons_of_mem _ hy)]

theorem extnameOf_eq (p : String) (body t : List Char) (hnd : '.' ∉ body)
    (ht : t ++ '.' :: body = (lastSegment p).toList) (htne : t ≠ []) :
    extnameOf p = String.mk ('.' :: body) := by
  unfold extnameOf
  have hrev : (lastSegment p).toList.reverse = body.reverse ++ '.' :: t.reverse := by
    rw [← ht]
    simp
  have htw : (lastSegment p).toList.reverse.takeWhile (fun c => c ≠ '.') =
      body.reverse := by
    rw [hrev]
    apply takeWhile_append_stop
    · intro x hx
      simp only [ne_eq, decide_eq_true_eq, decide_not]
      have : x ∈ body := List.mem_reverse.mp hx
      simp only [Bool.not_eq_true', decide_eq_false_iff_not]
      exact fun hh => hnd (hh ▸ this)
    · simp
  have hdot : '.' ∈ (lastSegment p).toList := by
    rw [← ht]
    simp
  have hlen :
      ((lastSegment p).toList.reverse.takeWhile fun c => c ≠ '.').length + 1 ≠
        (lastSegment p).toList.length := by
    rw [htw, ← ht]
    simp only [List.length_reverse, List.length_append, List.length_cons]
    have : t.length ≠ 0 := fun h => htne (List.length_eq_zero.mp h)
    omega
  rw [if_pos ⟨hdot, hlen⟩, htw]
  simp

theorem jsSplitSlash_ne_nil (p : String) : jsSplitSlash p ≠ [] := by
  unfold jsSplitSlash
  intro h
  exact splitChar_ne_nil '/' p.toList (List.map_eq_nil_iff.mp h)

theorem extname_of_glob (ext p : String) (body : List Char)
    (hext : ext.toList = '.' :: body) (hnd : '.' ∉ body)
    (hnosl : '/' ∉ ext.toList) (h : globMatchesExt ext p = true) :
    extnameOf p = ext := by
  simp only [globMatchesExt, Bool.and_eq_true] at h
  obtain ⟨⟨hall, hend⟩, _⟩ := h
  have hsuf : ext.toList <:+ (lastSegment p).toList := by
    have h1 : ext.toList <:+ p.toList := List.isSuffixOf_iff_suffix.mp hend
    rw [lastSegment_toList]
    exact suffix_lastGroup ext.toList hnosl p.toList h1
  rcases hsuf with ⟨t, ht⟩
  rw [hext] at ht
  have hlastmem : lastSegment p ∈ jsSplitSlash p := by
    unfold lastSegment
    exact getLastD_mem_of_ne_nil _ (jsSplitSlash_ne_nil p) ""
  have hstart : jsStartsWith "." (lastSegment p) = false := by
    have := List.all_eq_true.mp hall _ hlastmem
    simpa using this
  have htne : t ≠ [] := by
    intro h0
    subst h0
    simp only [List.nil_append] at ht
    have h2 : jsStartsWith "." (lastSegment p) = true := by
      unfold jsStartsWith
      rw [show ("." : String).toList = ['.'] from rfl, ← ht]
      simp [List.isPrefixOf]
    rw [h2] at hstart
    cases hstart
  rw [extnameOf_eq p body t hnd ht htne, ← hext]
  cases ext
  rfl

theorem detectLanguage_of_glob (p ext : String)
    (hmem : ext ∈ [".py", ".ts", ".tsx", ".js", ".jsx"])
    (h : globMatchesExt ext p = true) :
    detectLanguage p = Lang.python ∨ detectLanguage p = Lang.typescript := by
  simp only [List.mem_cons, List.mem_singleton] at hmem
  rcases hmem with rfl | rfl | rfl | rfl | rfl | h5
  · left
    have hx := extname_of_glob ".py" p ['p', 'y'] rfl (by decide) (by decide) h
    unfold detectLanguage
    rw [hx]
    decide
  · right
    have hx := extname_of_glob ".ts" p ['t', 's'] rfl (by decide) (by decide) h
    unfold detectLanguage
    rw [hx]
    decide
  · right
    have hx := extname_of_glob ".tsx" p ['t', 's', 'x'] rfl (by decide) (by decide) h
    unfold detectLanguage
    rw [hx]
    decide
  · right
    have hx := extname_of_glob ".js" p ['j', 's'] rfl (by decide) (by decide) h
    unfold detectLanguage
    rw [hx]
    decide
  · right
    have hx := extname_of_glob ".jsx" p ['j', 's', 'x'] rfl (by decide) (by decide) h
    unfold detectLanguage
    rw [hx]
    decide
  · exact absurd h5 (by simp)

theorem jsSetDedup_subset (l : List String) : ∀ x ∈ jsSetDedup l, x ∈ l := by
  induction l with
  | nil => intro x hx; cases hx
  | cons y ys ih =>
    intro x hx
    rcases List.mem_cons.mp hx with rfl | h2
    · exact List.mem_cons_self _ _
    · exact List.mem_cons_of_mem _ (ih x (List.mem_of_mem_filter h2))

theorem mem_foldl_append {α β : Type} (g : β → List α) (pats : List β) :
    ∀ (acc : List α) (x : α), x ∈ pats.foldl (fun a e => a ++ g e) acc →
      x ∈ acc ∨ ∃ e ∈ pats, x ∈ g e := by
  induction pats with
  | nil => intro acc x h; exact Or.inl h
  | cons e es ih =>
    intro acc x h
    rcases ih (acc ++ g e) x h with h2 | ⟨e2, he2, hx⟩
    · rcases List.mem_append.mp h2 with h3 | h3
      · exact Or.inl h3
      · exact Or.inr ⟨e, List.mem_cons_self _ _, h3⟩
    · exact Or.inr ⟨e2, List.mem_cons_of_mem _ he2, hx⟩

theorem scanDirectory_mem {fs : FsEnv} {f : FileInfo}
    (h : f ∈ scanDirectory fs) :
    ∃ ext ∈ [".py", ".ts", ".tsx", ".js", ".jsx"],
      globMatchesExt ext f.path = true ∧ f.lang = detectLanguage f.path := by
  unfold scanDirectory at h
  rcases List.mem_filterMap.mp h with ⟨rp, hrp, hsome⟩
  rcases hst : fs.statOf rp with _ | st
  · rw [hst] at hsome
    cases hsome
  · rw [hst] at hsome
    simp only [Option.map_some', Option.some.injEq] at hsome
    have hpath : f.path = rp := by rw [← hsome]
    have hlang : f.lang = detectLanguage rp := by rw [← hsome]
    have hmem2 := jsSetDedup_subset _ _ hrp
    rcases mem_foldl_append _ _ [] rp hmem2 with h2 | ⟨ext, hextm, hx⟩
    · cases h2
    · refine ⟨ext, hextm, ?_, by rw [hlang, hpath]⟩
      rw [hpath]
      exact (List.mem_filter.mp hx).2

/-! ### Orchestrator lemmas -/

theorem PythonParser_parse_path (o : String → Except Unit AstNode)
    (src fp : String) (m : ModuleInfo)
    (h : PythonParser.parse o src fp = .ok m) : m.path = fp := by
  unfold PythonParser.parse at h
  rcases ho : o src with e | node
  · rw [ho] at h
    cases h
  · rw [ho] at h
    simp only [bind, Except.bind, pure, Except.pure, Except.ok.injEq] at h
    rw [← h]

theorem TypeScriptParser_parse_path (o : Bool → String → Except Unit AstNode)
    (src fp : String) : (TypeScriptParser.parse o src fp).path = fp := by
  unfold TypeScriptParser.parse
  rcases ho : o (jsEndsWith ".tsx" fp || jsEndsWith ".jsx" fp) src with e | root <;>
    simp only [ho]
  · rfl
  · by_cases h1 : TypeScriptParser.countErrors root > 0
    · rw [if_pos h1]
      by_cases h2 : TypeScriptParser.countErrors root > 10
      · rw [if_pos h2]
        rfl
      · rw [if_neg h2]
    · rw [if_neg h1]

theorem parseOneFile_path (env : Env) (f : FileInfo) (m : ModuleInfo)
    (h : parseOneFile env f = some m) : m.path = f.path := by
  unfold parseOneFile at h
  rcases hr : env.fs.readFile f.path with _ | src
  · rw [hr] at h
    cases h
  · rw [hr] at h
    rcases hl : f.lang with _ | _ | _ <;> rw [hl] at h <;> dsimp only at h
    · rcases hp : PythonParser.parse env.fs.pyTreeOf src f.path with e | mm <;>
        rw [hp] at h
      · cases h
      · have := PythonParser_parse_path _ _ _ _ hp
        cases h
        exact this
    · have := TypeScriptParser_parse_path env.fs.tsTreeOf src f.path
      cases h
      exact this
    · cases h

theorem filterMap_parse_filter (env : Env) (pr : String → Bool)
    (l : List FileInfo) :
    (l.filter fun f => pr f.path).filterMap (parseOneFile env) =
      (l.filterMap (parseOneFile env)).filter fun m => pr m.path := by
  induction l with
  | nil => rfl
  | cons f fs ih =>
    by_cases hp : pr f.path = true
    · rw [List.filter_cons_of_pos (by simpa using hp)]
      rcases hm : parseOneFile env f with _ | m
      · rw [List.filterMap_cons_none hm, List.filterMap_cons_none hm, ih]
      · rw [List.filterMap_cons_some hm, List.filterMap_cons_some hm]
        rw [List.filter_cons_of_pos
          (by rw [parseOneFile_path env f m hm]; simpa using hp), ih]
    · rw [List.filter_cons_of_neg (by simpa using hp)]
      rcases hm : parseOneFile env f with _ | m
      · rw [List.filterMap_cons_none hm, ih]
      · rw [List.filterMap_cons_some hm]
        rw [List.filter_cons_of_neg
          (by rw [parseOneFile_path env f m hm]; simpa using hp), ih]

/-! ### Nested trees for the depth-bound analysis -/

/-- A chain of `k` nested `module` nodes around `c`. -/
def moduleNest : Nat → AstNode → AstNode
  | 0, c => c
  | k + 1, c => .mk "module" [moduleNest k c] [] 0 0 0

/-- A chain of `k` nested `program` nodes around `c`. -/
def programNest : Nat → AstNode → AstNode
  | 0, c => c
  | k + 1, c => .mk "program" [programNest k c] [] 0 0 0

theorem pyWalk_moduleNest (source : String) (c : AstNode) (k : Nat) :
    PythonParser.walkNode source (moduleNest k c) =
      PythonParser.walkNode source c := by
  induction k with
  | zero => rfl
  | succ k ih =>
    have h1 : PythonParser.walkNode source (.mk "module" [moduleNest k c] [] 0 0 0) =
        PythonParser.walkList source [moduleNest k c] := rfl
    have h2 : PythonParser.walkList source [moduleNest k c] =
        ((PythonParser.walkNode source (moduleNest k c)).1 ++ [],
         (PythonParser.walkNode source (moduleNest k c)).2 ++ []) := rfl
    rw [moduleNest, h1, h2, ih]
    simp only [List.append_nil]

set_option maxHeartbeats 2000000 in
theorem tsWalk_stopped (source : String) (node : AstNode) (isExported : Bool)
    (depth : Nat) (h : depth > 50) :
    TypeScriptParser.walkNode source node isExported depth = ([], []) := by
  cases node with
  | mk t cs fs si ei r =>
    rw [TypeScriptParser.walkNode.eq_def]
    dsimp only
    rw [if_pos h]

/-! ## Concrete fixtures for witnesses and counterexamples -/

/-- A `GitEnv` where `git rev-parse --git-dir` fails: not a repository. -/
def noGit : GitEnv :=
  { revParseGitDir := .error ()
    revParseHead := .error ()
    branchShowCurrent := .error ()
    diffNameOnly := fun _ => .error ()
    recentCommits := []
    fileHistory := [] }

/-- A one-file filesystem whose Python grammar parses everything to an
empty module. -/
def pyFs : FsEnv :=
  { listing := ["a.py"]
    statOf := fun _ => some ⟨1, "t"⟩
    readFile := fun _ => some "x"
    pyTreeOf := fun _ => .ok (.mk "module" [] [] 0 0 0)
    tsTreeOf := fun _ _ => .error ()
    configOf := {} }

/-- The environment of a run over `pyFs` with no git repository. -/
def pyEnv : Env := { fs := pyFs, git := noGit, now := "now" }

/-- Like `pyFs`, but the Python grammar throws on every source. -/
def pyFailFs : FsEnv :=
  { listing := ["a.py"]
    statOf := fun _ => some ⟨1, "t"⟩
    readFile := fun _ => some "x"
    pyTreeOf := fun _ => .error ()
    tsTreeOf := fun _ _ => .error ()
    configOf := {} }

/-- The environment of a run over `pyFailFs`. -/
def pyFailEnv : Env := { fs := pyFailFs, git := noGit, now := "now" }

/-- The file record the scanner produces for `a.py` under `pyFs`. -/
def aPyFile : FileInfo := ⟨"a.py", Lang.python, Role.source, 1, "t"⟩

/-- A one-file TypeScript filesystem whose grammar throws on every
source. -/
def tsFailFs : FsEnv :=
  { listing := ["a.ts"]
    statOf := fun _ => some ⟨1, "t"⟩
    readFile := fun _ => some "x"
    pyTreeOf := fun _ => .error ()
    tsTreeOf := fun _ _ => .error ()
    configOf := {} }

/-- The environment of a run over `tsFailFs`. -/
def tsFailEnv : Env := { fs := tsFailFs, git := noGit, now := "now" }

/-- The file record the scanner produces for `a.ts` under `tsFailFs`. -/
def aTsFile : FileInfo := ⟨"a.ts", Lang.typescript, Role.source, 1, "t"⟩

/-- A Python AST with eleven ERROR nodes and one function definition. -/
def cexPyTree : AstNode :=
  .mk "module"
    (List.replicate 11 (.mk "ERROR" [] [] 0 0 0) ++
      [.mk "function_definition" [] [("name", .mk "identifier" [] [] 0 1 0)] 0 1 0])
    [] 0 1 0

/-- A relative-path file for the tree-builder witness. -/
def c4File : FileInfo := ⟨"a", Lang.python, Role.source, 1, "t"⟩

/-- Sixty nested `module` nodes around one function definition. -/
def deepPyTree : AstNode :=
  moduleNest 60 (.mk "function_definition" [] [("name", .mk "identifier" [] [] 0 1 0)] 0 0 0)

/-- Sixty nested `program` nodes around one function declaration. -/
def deepTsTree : AstNode :=
  programNest 60 (.mk "function_declaration" [] [("name", .mk "identifier" [] [] 0 1 0)] 0 0 0)

/-- A TypeScript grammar oracle defined on every source. -/
def tsOracle1 : Bool → String → Except Unit AstNode :=
  fun _ _ => .ok (.mk "program" [] [] 0 0 0)

/-- A TypeScript grammar oracle that agrees with `tsOracle1` only on the
source text `x`. -/
def tsOracle2 : Bool → String → Except Unit AstNode :=
  fun _ s => if s = "x" then .ok (.mk "program" [] [] 0 0 0) else .error ()

/-- A Python grammar oracle defined on every source. -/
def pyOracle1 : String → Except Unit AstNode :=
  fun _ => .ok (.mk "module" [] [] 0 0 0)

/-- A Python grammar oracle that agrees with `pyOracle1` only on the
source text `x`. -/
def pyOracle2 : String → Except Unit AstNode :=
  fun s => if s = "x" then .ok (.mk "module" [] [] 0 0 0) else .error ()

/-- A one-file filesystem holding a single `.js` file. -/
def jsFs : FsEnv :=
  { listing := ["a.js"]
    statOf := fun _ => some ⟨1, "t"⟩
    readFile := fun _ => none
    pyTreeOf := fun _ => .error ()
    tsTreeOf := fun _ _ => .error ()
    configOf := {} }

/-- The file record the scanner produces for `a.js` under `jsFs`. -/
def aJsFile : FileInfo := ⟨"a.js", Lang.typescript, Role.source, 1, "t"⟩

/-! ## The claims -/

/-- C1 (corrected).  Incremental equivalence holds for every nonempty
path subset `S`: the modules of `analyze` with `onlyFiles = S` are the
modules of the full `analyze` filtered to paths in `S`.  For `S = []`
the code takes the `files.length > 0` guard's other branch and performs
a full analysis instead (see the counterexample). -/
theorem C1_incremental_equivalence (env : Env) (root : String)
    (S : List String) (lc : Option String) (h : S ≠ []) :
    (analyze env root (some S) lc).modules =
      ((analyze env root none lc).modules).filter fun m => S.contains m.path := by
  have hlen : S.length > 0 := List.length_pos.mpr h
  have h1 : (analyze env root (some S) lc).modules =
      ((if S.length > 0
          then (scanDirectory env.fs).filter (fun f => S.contains f.path)
          else scanDirectory env.fs).filter
        (fun f => f.role == Role.source && f.lang != Lang.other)).filterMap
        (parseOneFile env) := rfl
  have h2 : (analyze env root none lc).modules =
      ((scanDirectory env.fs).filter
        (fun f => f.role == Role.source && f.lang != Lang.other)).filterMap
        (parseOneFile env) := rfl
  rw [h1, h2, if_pos hlen, List.filter_comm]
  exact filterMap_parse_filter env (fun p => S.contains p) _

/-- Witness for C1 at the one-file environment and `S = ["a.py"]`. -/
theorem C1_witness :
    (["a.py"] : List String) ≠ [] ∧
      (analyze pyEnv "r" (some ["a.py"]) none).modules =
        ((analyze pyEnv "r" none none).modules).filter
          fun m => (["a.py"] : List String).contains m.path :=
  ⟨by decide, C1_incremental_equivalence pyEnv "r" ["a.py"] none (by decide)⟩

/-- Counterexample to C1 as stated: with `S = []` the restricted run
returns the full module list, not the empty filtered list. -/
theorem C1_cex :
    (analyze pyEnv "r" (some ([] : List String)) none).modules ≠
      ((analyze pyEnv "r" none none).modules).filter
        fun m => (([] : List String).contains m.path) := by
  decide

/-- C2 (corrected).  What parse failure actually does: the TypeScript
parser catches a grammar exception and returns the empty module, and
degrades to the empty module when the tree holds more than ten ERROR
nodes; the orchestrator keeps every readable TypeScript source file in
the modules list (the degraded module included).  The Python parser
propagates a grammar exception, and the orchestrator's per-file catch
then drops the file from `modules`. -/
theorem C2_parse_failure_degradation (o : Bool → String → Except Unit AstNode)
    (po : String → Except Unit AstNode) (env : Env) (f : FileInfo)
    (src fp rt : String) (root : AstNode) (onlyFiles : Option (List String))
    (lc : Option String) :
    (o (jsEndsWith ".tsx" fp || jsEndsWith ".jsx" fp) src = .error () →
      TypeScriptParser.parse o src fp = TypeScriptParser.createEmptyModule fp) ∧
    (o (jsEndsWith ".tsx" fp || jsEndsWith ".jsx" fp) src = .ok root →
      TypeScriptParser.countErrors root > 10 →
      TypeScriptParser.parse o src fp = TypeScriptParser.createEmptyModule fp) ∧
    (f.lang = Lang.typescript → env.fs.readFile f.path = some src →
      parseOneFile env f =
        some (TypeScriptParser.parse env.fs.tsTreeOf src f.path)) ∧
    (f.lang = Lang.typescript → f.role = Role.source →
      env.fs.readFile f.path = some src →
      f ∈ (analyze env rt onlyFiles lc).files →
      TypeScriptParser.parse env.fs.tsTreeOf src f.path ∈
        (analyze env rt onlyFiles lc).modules) ∧
    (po src = .error () → PythonParser.parse po src fp = .error ()) ∧
    (f.lang = Lang.python → env.fs.readFile f.path = some src →
      env.fs.pyTreeOf src = .error () → parseOneFile env f = none) := by
  have hpf : f.lang = Lang.typescript → env.fs.readFile f.path = some src →
      parseOneFile env f =
        some (TypeScriptParser.parse env.fs.tsTreeOf src f.path) := by
    intro hlang hread
    unfold parseOneFile
    rw [hread]
    dsimp only
    rw [hlang]
  refine ⟨?_, ?_, hpf, ?_, ?_, ?_⟩
  · intro h
    simp only [TypeScriptParser.parse, h]
  · intro hok h10
    simp only [TypeScriptParser.parse, hok]
    rw [if_pos (by omega : TypeScriptParser.countErrors root > 0), if_pos h10]
  · intro hlang hrole hread hmem
    have hm : (analyze env rt onlyFiles lc).modules =
        ((analyze env rt onlyFiles lc).files.filter
          (fun g => g.role == Role.source && g.lang != Lang.other)).filterMap
          (parseOneFile env) := rfl
    rw [hm]
    refine List.mem_filterMap.mpr ⟨f, List.mem_filter.mpr ⟨hmem, ?_⟩,
      hpf hlang hread⟩
    rw [hrole, hlang]
    decide
  · intro h
    unfold PythonParser.parse
    rw [h]
    rfl
  · intro hlang hread herr
    unfold parseOneFile
    rw [hread]
    dsimp only
    rw [hlang]
    dsimp only
    have hp : PythonParser.parse env.fs.pyTreeOf src f.path = .error () := by
      unfold PythonParser.parse
      rw [herr]
      rfl
    rw [hp]

/-- Witness for C2: a thrown TypeScript grammar exception, an
over-threshold error count, the degraded TypeScript module kept by the
per-file loop and present in the analyzed modules list, a thrown Python
grammar exception, and the orchestrator dropping the unparseable Python
file. -/
theorem C2_witness :
    TypeScriptParser.parse (fun _ _ => .error ()) "s" "a.ts" =
        TypeScriptParser.createEmptyModule "a.ts" ∧
      TypeScriptParser.parse (fun _ _ => .ok cexPyTree) "s" "a.ts" =
        TypeScriptParser.createEmptyModule "a.ts" ∧
      parseOneFile tsFailEnv aTsFile =
        some (TypeScriptParser.createEmptyModule "a.ts") ∧
      TypeScriptParser.createEmptyModule "a.ts" ∈
        (analyze tsFailEnv "r" none none).modules ∧
      PythonParser.parse (fun _ => .error ()) "s" "a.py" = .error () ∧
      parseOneFile pyFailEnv aPyFile = none :=
  ⟨(C2_parse_failure_degradation (fun _ _ => .error ()) (fun _ => .error ())
      pyFailEnv aPyFile "s" "a.ts" "r" (.mk "" [] [] 0 0 0) none none).1 rfl,
   (C2_parse_failure_degradation (fun _ _ => .ok cexPyTree) (fun _ => .error ())
      pyFailEnv aPyFile "s" "a.ts" "r" cexPyTree none none).2.1 rfl (by decide),
   (C2_parse_failure_degradation (fun _ _ => .error ()) (fun _ => .error ())
      tsFailEnv aTsFile "x" "a.ts" "r" (.mk "" [] [] 0 0 0) none none).2.2.1
      rfl rfl,
   (C2_parse_failure_degradation (fun _ _ => .error ()) (fun _ => .error ())
      tsFailEnv aTsFile "x" "a.ts" "r" (.mk "" [] [] 0 0 0) none none).2.2.2.1
      rfl rfl rfl (by decide),
   (C2_parse_failure_degradation (fun _ _ => .error ()) (fun _ => .error ())
      pyFailEnv aPyFile "s" "a.py" "r" (.mk "" [] [] 0 0 0) none none).2.2.2.2.1
      rfl,
   (C2_parse_failure_degradation (fun _ _ => .error ()) (fun _ => .error ())
      pyFailEnv aPyFile "x" "a.py" "r" (.mk "" [] [] 0 0 0) none none).2.2.2.2.2
      rfl rfl rfl⟩

/-- Counterexample to C2 as stated: a Python tree with eleven ERROR
nodes still yields its extracted exports (no threshold degradation),
and a Python grammar exception makes the orchestrator omit the file
from `modules` even though the scanner listed it. -/
theorem C2_cex :
    (PythonParser.parse (fun _ => .ok cexPyTree) "f" "a.py").toOption =
        some ⟨"a.py", [⟨"f", "function", none, none, 1, some false, none⟩], [], "low"⟩ ∧
      (analyze pyFailEnv "r" none none).files = [aPyFile] ∧
      (analyze pyFailEnv "r" none none).modules = [] := by
  decide

/-- C3 (confirmed).  Complexity-tier boundaries: 5 exports give low, 6
and 15 give medium, 16 gives high; in general the tier is the stated
function of the export count alone, and both parsers' results satisfy
`complexity = calculateComplexity exports.length`. -/
theorem C3_complexity_boundaries (po : String → Except Unit AstNode)
    (o : Bool → String → Except Unit AstNode) (src fp : String)
    (m : ModuleInfo) (n : Nat) :
    BaseParser.calculateComplexity 5 = "low" ∧
    BaseParser.calculateComplexity 6 = "medium" ∧
    BaseParser.calculateComplexity 15 = "medium" ∧
    BaseParser.calculateComplexity 16 = "high" ∧
    BaseParser.calculateComplexity n =
      (if n ≤ 5 then "low" else if n ≤ 15 then "medium" else "high") ∧
    (TypeScriptParser.parse o src fp).complexity =
      BaseParser.calculateComplexity
        (TypeScriptParser.parse o src fp).exports.length ∧
    (PythonParser.parse po src fp = .ok m →
      m.complexity = BaseParser.calculateComplexity m.exports.length) := by
  refine ⟨rfl, rfl, rfl, rfl, rfl, ?_, ?_⟩
  · rcases ho : o (jsEndsWith ".tsx" fp || jsEndsWith ".jsx" fp) src with e | root
    · simp only [TypeScriptParser.parse, ho]
      rfl
    · simp only [TypeScriptParser.parse, ho]
      by_cases h1 : TypeScriptParser.countErrors root > 0
      · rw [if_pos h1]
        by_cases h2 : TypeScriptParser.countErrors root > 10
        · rw [if_pos h2]
          rfl
        · rw [if_neg h2]
      · rw [if_neg h1]
  · intro h
    unfold PythonParser.parse at h
    rcases hpo : po src with e | root
    · rw [hpo] at h
      cases h
    · rw [hpo] at h
      simp only [bind, Except.bind, pure, Except.pure, Except.ok.injEq] at h
      rw [← h]

/-- Witness for C3: concrete boundary values and a concretely parsed
empty Python module whose tier is coherent with its export count. -/
theorem C3_witness :
    BaseParser.calculateComplexity 5 = "low" ∧
      BaseParser.calculateComplexity 16 = "high" ∧
      (⟨"a.py", [], [], "low"⟩ : ModuleInfo).complexity =
        BaseParser.calculateComplexity
          (⟨"a.py", [], [], "low"⟩ : ModuleInfo).exports.length :=
  ⟨(C3_complexity_boundaries pyOracle1 tsOracle1 "x" "a.py"
      ⟨"a.py", [], [], "low"⟩ 0).1,
   (C3_complexity_boundaries pyOracle1 tsOracle1 "x" "a.py"
      ⟨"a.py", [], [], "low"⟩ 0).2.2.2.1,
   (C3_complexity_boundaries pyOracle1 tsOracle1 "x" "a.py"
      ⟨"a.py", [], [], "low"⟩ 0).2.2.2.2.2.2 rfl⟩

/-- C4 (corrected).  For inputs whose paths do not begin with a slash
(all scanner outputs are such relative paths), the built tree has
exactly one file leaf per input file — counted as a multiset, so a path
listed twice yields two leaves — and every node's children are ordered
directories-first and then by name; the ordering holds unconditionally.
Absolute paths silently lose their file leaf (see the counterexample). -/
theorem C4_file_tree_invariant (files : List FileInfo) (rootName : String) :
    isOrderedTree (buildFileTree files rootName) = true ∧
    ((∀ f ∈ files, jsStartsWith "/" f.path = false) →
      fileLeafCount (buildFileTree files rootName) = files.length ∧
      ∀ x, leafPathCount x (buildFileTree files rootName) =
        (files.map FileInfo.path).count x) := by
  have hbt : buildFileTree files rootName =
      sortTreeRecursive (MAT ((stableSortBy fileCompareLe files).foldl
        processFile [⟨"", rootName, []⟩]) rootName) := rfl
  refine ⟨?_, ?_⟩
  · rw [hbt]
    exact isOrderedTree_sortTreeRecursive _
  · intro h
    have hsorted : ∀ f ∈ stableSortBy fileCompareLe files,
        jsStartsWith "/" f.path = false :=
      fun f hf => h f (mem_stableSortBy hf)
    have hg := foldl_processFile_good (stableSortBy fileCompareLe files)
      (goodMap_init rootName) hsorted
    have hperm := (stableSortBy_perm fileCompareLe files).map FileInfo.path
    refine ⟨?_, ?_⟩
    · rw [hbt, sortTreeRecursive_count fileLeafCount
        (fun _ _ t _ _ => if t = NodeType.file then 1 else 0) fileLeafCount_mk]
      rw [hg.total]
      simp only [List.nil_append, List.length_map]
      exact (stableSortBy_perm fileCompareLe files).length_eq
    · intro x
      rw [hbt, sortTreeRecursive_count (leafPathCount x)
        (fun _ p t _ _ => if t = NodeType.file ∧ p = x then 1 else 0)
        (leafPathCount_mk x)]
      rw [hg.leafCount x]
      simp only [List.nil_append]
      exact hperm.count_eq x

/-- Witness for C4: the unconditional ordering at an absolute-path input
and at a relative-path input, and the leaf count at the latter. -/
theorem C4_witness :
    isOrderedTree (buildFileTree
        [⟨"/a/b", Lang.python, Role.source, 1, "t"⟩] ".") = true ∧
      jsStartsWith "/" c4File.path = false ∧
      isOrderedTree (buildFileTree [c4File] ".") = true ∧
      fileLeafCount (buildFileTree [c4File] ".") = 1 :=
  ⟨(C4_file_tree_invariant [⟨"/a/b", Lang.python, Role.source, 1, "t"⟩] ".").1,
    by decide, (C4_file_tree_invariant [c4File] ".").1,
    ((C4_file_tree_invariant [c4File] ".").2 (by decide)).1⟩

/-- Counterexample to C4 as stated: the absolute path `/a/b` produces a
tree with no file leaf at all (its leaf is pushed at a key the map never
created), and a path listed twice appears as a leaf twice, not once. -/
theorem C4_cex :
    fileLeafCount
        (buildFileTree [⟨"/a/b", Lang.python, Role.source, 1, "t"⟩] ".") = 0 ∧
      leafPathCount "a"
        (buildFileTree [⟨"a", Lang.python, Role.source, 1, "t"⟩,
          ⟨"a", Lang.typescript, Role.test, 2, "u"⟩] ".") = 2 := by
  constructor
  · have h1 : buildFileTree [⟨"/a/b", Lang.python, Role.source, 1, "t"⟩] "." =
        sortTreeRecursive (materialize [⟨"", ".", [RawChild.dirRef "a" "a"]⟩,
          ⟨"a", "a", []⟩] 3 "" ".") := rfl
    rw [h1, sortTreeRecursive_count fileLeafCount
        (fun _ _ t _ _ => if t = NodeType.file then 1 else 0) fileLeafCount_mk]
    have h3 : materialize [⟨"", ".", [RawChild.dirRef "a" "a"]⟩,
        ⟨"a", "a", []⟩] 3 "" "." =
        .mk "." "" NodeType.directory
          [.mk "a" "a" NodeType.directory [] none none] none none := by
      simp [materialize, materializeChild, lookupNM, List.find?]
    rw [h3]
    rfl
  · have hle : fileCompareLe ⟨"a", Lang.python, Role.source, 1, "t"⟩
        ⟨"a", Lang.typescript, Role.test, 2, "u"⟩ = true := by
      unfold fileCompareLe
      simp
    have h0 : stableSortBy fileCompareLe [⟨"a", Lang.python, Role.source, 1, "t"⟩,
        ⟨"a", Lang.typescript, Role.test, 2, "u"⟩] =
        [⟨"a", Lang.python, Role.source, 1, "t"⟩,
          ⟨"a", Lang.typescript, Role.test, 2, "u"⟩] := by
      simp [stableSortBy, insertBy, hle]
    have h2 : (([⟨"a", Lang.python, Role.source, 1, "t"⟩,
        ⟨"a", Lang.typescript, Role.test, 2, "u"⟩] : List FileInfo).foldl
        processFile [⟨"", ".", []⟩] : NodeMap) =
        [⟨"", ".",
          [RawChild.fileLeaf (.mk "a" "a" NodeType.file []
              (some Lang.python) (some Role.source)),
            RawChild.fileLeaf (.mk "a" "a" NodeType.file []
              (some Lang.typescript) (some Role.test))]⟩] := rfl
    have h1 : buildFileTree [⟨"a", Lang.python, Role.source, 1, "t"⟩,
        ⟨"a", Lang.typescript, Role.test, 2, "u"⟩] "." =
        sortTreeRecursive (materialize [⟨"", ".",
          [RawChild.fileLeaf (.mk "a" "a" NodeType.file []
              (some Lang.python) (some Role.source)),
            RawChild.fileLeaf (.mk "a" "a" NodeType.file []
              (some Lang.typescript) (some Role.test))]⟩] 2 "" ".") := by
      simp only [buildFileTree]
      rw [h0, h2]
      rfl
    rw [h1, sortTreeRecursive_count (leafPathCount "a")
        (fun _ p t _ _ => if t = NodeType.file ∧ p = "a" then 1 else 0)
        (leafPathCount_mk "a")]
    have h3 : materialize [⟨"", ".",
        [RawChild.fileLeaf (.mk "a" "a" NodeType.file []
            (some Lang.python) (some Role.source)),
          RawChild.fileLeaf (.mk "a" "a" NodeType.file []
            (some Lang.typescript) (some Role.test))]⟩] 2 "" "." =
        .mk "." "" NodeType.directory
          [.mk "a" "a" NodeType.file [] (some Lang.python) (some Role.source),
            .mk "a" "a" NodeType.file [] (some Lang.typescript) (some Role.test)]
          none none := by
      simp [materialize, materializeChild, lookupNM, List.find?]
    rw [h3]
    rfl

/-- C5 (corrected).  Only the TypeScript walk is depth-bounded: past
depth 50 it stops descending and contributes nothing.  The Python walk
has no depth counter at all — it is transparent to `module` nesting of
every depth `k`, so it keeps descending on arbitrarily nested input
(see the counterexample). -/
theorem C5_depth_bounded_walk (source : String) (node : AstNode)
    (isExported : Bool) (depth : Nat) (h : depth > 50)
    (c : AstNode) (k : Nat) :
    TypeScriptParser.walkNode source node isExported depth = ([], []) ∧
      PythonParser.walkNode source (moduleNest k c) =
        PythonParser.walkNode source c :=
  ⟨tsWalk_stopped source node isExported depth h,
    pyWalk_moduleNest source c k⟩

/-- Witness for C5 at depth 51 and a three-deep module nest. -/
theorem C5_witness :
    51 > 50 ∧
      TypeScriptParser.walkNode "" (.mk "program" [] [] 0 0 0) false 51 =
        ([], []) ∧
      PythonParser.walkNode "" (moduleNest 3 (.mk "pass_statement" [] [] 0 0 0)) =
        PythonParser.walkNode "" (.mk "pass_statement" [] [] 0 0 0) :=
  ⟨by decide,
    (C5_depth_bounded_walk "" (.mk "program" [] [] 0 0 0) false 51 (by decide)
      (.mk "pass_statement" [] [] 0 0 0) 3).1,
    (C5_depth_bounded_walk "" (.mk "program" [] [] 0 0 0) false 51 (by decide)
      (.mk "pass_statement" [] [] 0 0 0) 3).2⟩

/-- Counterexample to C5 as stated: sixty levels down, the Python walk
still extracts the function (no bound stopped the descent), while the
TypeScript walk has long since stopped. -/
theorem C5_cex :
    PythonParser.walkNode "f" deepPyTree ≠ ([], []) ∧
      TypeScriptParser.walkNode "f" deepTsTree false 0 = ([], []) := by
  decide

/-- C6 (confirmed).  When `git rev-parse --git-dir` fails, `getGitInfo`
returns `none` — an absent field, not an empty object — and `analyze`
still succeeds, with `git = none` in its summary. -/
theorem C6_no_git_absent (env : Env) (root : String)
    (onlyFiles : Option (List String)) (lc : Option String)
    (h : env.git.revParseGitDir = .error ()) :
    getGitInfo env.git lc = none ∧ (analyze env root onlyFiles lc).git = none := by
  have h1 : getGitInfo env.git lc = none := by
    unfold getGitInfo
    rw [h]
  refine ⟨h1, ?_⟩
  have h2 : (analyze env root onlyFiles lc).git = getGitInfo env.git lc := rfl
  rw [h2, h1]

/-- Witness for C6 at the no-repository environment. -/
theorem C6_witness :
    pyEnv.git.revParseGitDir = .error () ∧
      getGitInfo pyEnv.git none = none ∧
      (analyze pyEnv "r" none none).git = none :=
  ⟨rfl, (C6_no_git_absent pyEnv "r" none none rfl).1,
    (C6_no_git_absent pyEnv "r" none none rfl).2⟩

/-- C7 (confirmed).  Each parser's output is a function of the source
text, the file path and the grammar's tree for that text alone: two runs
whose grammar oracles agree on the given source produce identical
modules, so parsing the same text twice is deterministic. -/
theorem C7_parser_determinism (o1 o2 : Bool → String → Except Unit AstNode)
    (po1 po2 : String → Except Unit AstNode) (src fp : String)
    (h1 : o1 (jsEndsWith ".tsx" fp || jsEndsWith ".jsx" fp) src =
      o2 (jsEndsWith ".tsx" fp || jsEndsWith ".jsx" fp) src)
    (h2 : po1 src = po2 src) :
    TypeScriptParser.parse o1 src fp = TypeScriptParser.parse o2 src fp ∧
      PythonParser.parse po1 src fp = PythonParser.parse po2 src fp := by
  constructor
  · simp only [TypeScriptParser.parse, h1]
  · unfold PythonParser.parse
    rw [h2]

/-- Witness for C7: two pairs of oracles that differ elsewhere but agree
on the parsed source produce the same modules. -/
theorem C7_witness :
    TypeScriptParser.parse tsOracle1 "x" "a.py" =
        TypeScriptParser.parse tsOracle2 "x" "a.py" ∧
      PythonParser.parse pyOracle1 "x" "a.py" =
        PythonParser.parse pyOracle2 "x" "a.py" :=
  C7_parser_determinism tsOracle1 tsOracle2 pyOracle1 pyOracle2 "x" "a.py" rfl rfl

/-- C8 (confirmed).  `analyze` with `onlyFiles = some []` takes the
unrestricted branch of the `files.length > 0` guard, so the whole
summary — modules included — equals that of a full `analyze`. -/
theorem C8_empty_onlyFiles_full (env : Env) (root : String)
    (lc : Option String) :
    analyze env root (some ([] : List String)) lc = analyze env root none lc :=
  rfl

/-- C9 (confirmed).  Every record the scanner emits was selected by one
of the five extension globs, so its language is `python` or
`typescript`, never `other`; in particular `.js`/`.jsx` files are
classified as `typescript`. -/
theorem C9_scanner_language_invariant (fs : FsEnv) (f : FileInfo)
    (h : f ∈ scanDirectory fs) :
    (f.lang = Lang.python ∨ f.lang = Lang.typescript) ∧
      f.lang ≠ Lang.other ∧
      ((extnameOf f.path = ".js" ∨ extnameOf f.path = ".jsx") →
        f.lang = Lang.typescript) := by
  obtain ⟨ext, hmem, hglob, hlang⟩ := scanDirectory_mem h
  have hor : f.lang = Lang.python ∨ f.lang = Lang.typescript := by
    rw [hlang]
    exact detectLanguage_of_glob f.path ext hmem hglob
  refine ⟨hor, ?_, ?_⟩
  · rcases hor with h1 | h1 <;> rw [h1] <;> decide
  · intro hext
    rw [hlang]
    unfold detectLanguage
    rcases hext with he | he <;> rw [he] <;> decide

/-- Witness for C9: the scanner's record for a lone `.js` file, whose
language is `typescript`. -/
theorem C9_witness :
    aJsFile ∈ scanDirectory jsFs ∧ aJsFile.lang = Lang.typescript :=
  ⟨by decide,
    (C9_scanner_language_invariant jsFs aJsFile (by decide)).2.2
      (Or.inl (by decide))⟩

/-- C10 (confirmed).  With no changed source files since the baseline,
`analyzeIncremental` returns the minimal summary — empty languages,
files and modules, empty config, no tree — and its result does not
depend on the filesystem at all: no scan or parse happens. -/
theorem C10_no_changes_minimal (env : Env) (fs2 : FsEnv)
    (root lastCommit : String)
    (h : getChangedFiles env.git lastCommit = []) :
    analyzeIncremental env root lastCommit =
      { languages := [], root := root, analyzedAt := env.now, files := [],
        modules := [], config := {},
        git := getGitInfo env.git (some lastCommit), tree := none } ∧
    analyzeIncremental { fs := fs2, git := env.git, now := env.now }
        root lastCommit =
      analyzeIncremental env root lastCommit := by
  have hmin : ∀ fsx : FsEnv,
      analyzeIncremental { fs := fsx, git := env.git, now := env.now }
          root lastCommit =
        { languages := [], root := root, analyzedAt := env.now, files := [],
          modules := [], config := {},
          git := getGitInfo env.git (some lastCommit), tree := none } := by
    intro fsx
    simp only [analyzeIncremental]
    rw [h]
    rfl
  exact ⟨hmin env.fs, (hmin fs2).trans (hmin env.fs).symm⟩

/-- Witness for C10 at a no-repository environment, where the diff
fails and the changed-file list is empty. -/
theorem C10_witness :
    getChangedFiles noGit "c" = [] ∧
      analyzeIncremental pyEnv "r" "c" =
        { languages := [], root := "r", analyzedAt := "now", files := [],
          modules := [], config := {},
          git := getGitInfo noGit (some "c"), tree := none } :=
  ⟨rfl, (C10_no_changes_minimal pyEnv jsFs "r" "c" rfl).1⟩
